import Mathlib

/-!
# Verification of the voter geocoding and spatial-analysis pipeline

This file gives a shallow embedding, in Lean 4, of the core data
transformations of the voter/parcel geospatial pipeline:

* `enhanced_clean` — the address normalizer (`scripts/geocoding.py`,
  `enhanced_clean`), modelled character-for-character over `List Char`;
  Python's `str.upper` is modelled by the ASCII case map (`Char.toUpper`),
  `re.sub` with the concrete patterns of the source is modelled by
  directly-defined scanning functions with the same semantics.
* `addr_lookup` / `geocode` — the address-lookup builder and the
  exact-match geocoder of `ultra_fast_geocode_county`.
* `spatial_join_county` — the left point-in-polygon join of
  `scripts/spatial_joins.py` (the geometric `within` test is instantiated
  with axis-aligned rectangles; the join logic is independent of it).
* `density_scores` / `urban_rural` — the O(n²) neighbour count and the
  percentile classification of `analysis_1_urban_rural_classification`
  (`scripts/additional_analyses.py`).  Real (floating point) arithmetic is
  modelled exactly over `ℚ`; the comparison `dist > 0 ∧ dist ≤ 2000` on
  Euclidean distances is rendered by the equivalent comparison of squared
  distances, avoiding `Real.sqrt` while preserving exact semantics.
* `registration_period` — the registration-date bucketing of
  `analysis_5_voter_registration_date_patterns`; the `pd.to_datetime(...,
  errors='coerce').dt.year` result is modelled as `Option ℤ` (with `none`
  for `NaT`), and comparisons against the missing value are `false`, as in
  pandas.
-/

namespace VoterPipeline

/-! ## Analysis 1: density scores (additional_analyses.py, lines 29–46)

The source computes, for each point `coord`, the Euclidean distances to all
points of the dataset and counts those with `(distances > 0) &
(distances <= search_radius)` where `search_radius = 2000`.  Over exact
arithmetic, `0 < dist p q ∧ dist p q ≤ 2000` holds iff
`0 < distSq p q ∧ distSq p q ≤ 2000²`, which is how it is rendered here. -/

/-- Squared Euclidean distance between two points of the projected plane. -/
def distSq (p q : ℚ × ℚ) : ℚ :=
  (p.1 - q.1) ^ 2 + (p.2 - q.2) ^ 2

/-- Density score of the point `p` relative to the dataset `pts`: the count of
points at positive distance at most 2000 (`additional_analyses.py` lines
35–40, with the distance comparison squared). -/
def densityScore (pts : List (ℚ × ℚ)) (p : ℚ × ℚ) : ℕ :=
  pts.countP (fun q => decide (0 < distSq p q ∧ distSq p q ≤ 2000 ^ 2))

/-- The per-point density scores, in dataset order. -/
def density_scores (pts : List (ℚ × ℚ)) : List ℕ :=
  pts.map (densityScore pts)

/-- Stated from the spec, for comparison with `densityScore` (claim C1):
"for each point, count other points (points at an index different from it)
within a fixed radius (2000 distance units)". -/
def specDensityScore (pts : List (ℚ × ℚ)) (i : ℕ) : ℕ :=
  pts.enum.countP (fun jq =>
    decide (jq.1 ≠ i ∧ distSq (pts.getD i (0, 0)) jq.2 ≤ 2000 ^ 2))

/-! ## Analysis 1: percentile classification (lines 49–55)

`np.percentile` with the default linear interpolation: sort ascending, let
`pos = q/100 · (n-1)`, and interpolate between the neighbouring order
statistics. -/

/-- Linear interpolation into the sorted sample at fractional rank `pos`:
with `i = ⌊pos⌋`, the value is `ys[i] + (pos - i) · (ys[i+1] - ys[i])` (the
upper neighbour collapses to the lower one at the last index). -/
def npInterp (ys : List ℚ) (pos : ℚ) : ℚ :=
  ys.getD (⌊pos⌋).toNat 0 +
    (pos - (((⌊pos⌋).toNat : ℕ) : ℚ)) *
      (ys.getD ((⌊pos⌋).toNat + 1) (ys.getD (⌊pos⌋).toNat 0) - ys.getD (⌊pos⌋).toNat 0)

/-- The `q`-th percentile of `xs` under numpy's default linear
interpolation: sort ascending and interpolate at rank `q/100 · (n-1)`. -/
def npPercentile (xs : List ℚ) (q : ℚ) : ℚ :=
  let ys := xs.insertionSort (· ≤ ·)
  npInterp ys (q * ((ys.length : ℚ) - 1) / 100)

/-- Urban/Suburban/Rural labels for a list of density scores, mirroring the
source's sequence of vectorized assignments: default `'Suburban'`, then
`urban_rural = 'Urban'` where `score >= urban_threshold`, then
`urban_rural = 'Rural'` where `score <= rural_threshold` (in that order, so
the `Rural` assignment overwrites the `Urban` one where both apply). -/
def urban_rural (scores : List ℚ) : List String :=
  let urban_threshold := npPercentile scores 75
  let rural_threshold := npPercentile scores 25
  scores.map (fun s =>
    let lab := "Suburban"
    let lab := if urban_threshold ≤ s then "Urban" else lab
    let lab := if s ≤ rural_threshold then "Rural" else lab
    lab)

/-- The classification pipeline of `analysis_1_urban_rural_classification`:
density scores (cast to the real-valued world numpy computes percentiles in)
followed by the percentile split. -/
def analysis_1_urban_rural_classification (pts : List (ℚ × ℚ)) : List String :=
  urban_rural ((density_scores pts).map (fun n => (n : ℚ)))

/-! ## Analysis 5: registration-period bucketing (lines 315–325)

`registration_year` is `Option ℤ`: `none` models the `NaT`/`NaN` year of an
unparseable `registr_dt` (`pd.to_datetime(..., errors='coerce')`).  In
pandas, every comparison against the missing value is `False`, so a `none`
row is left at the `'Unknown'` default by every masked assignment. -/

/-- Comparison `y < b` on a possibly-missing year; `false` on `none`. -/
def optLT (y : Option ℤ) (b : ℤ) : Bool :=
  match y with
  | some v => decide (v < b)
  | none => false

/-- Comparison `y ≥ b` on a possibly-missing year; `false` on `none`. -/
def optGE (y : Option ℤ) (b : ℤ) : Bool :=
  match y with
  | some v => decide (b ≤ v)
  | none => false

/-- The registration-period bucket of a (possibly missing) registration
year, mirroring the source's sequence of masked assignments. -/
def registration_period (y : Option ℤ) : String :=
  let p := "Unknown"
  let p := if optLT y 2000 then "Before 2000" else p
  let p := if optGE y 2000 && optLT y 2010 then "2000-2009" else p
  let p := if optGE y 2010 && optLT y 2020 then "2010-2019" else p
  let p := if optGE y 2020 then "2020-Present" else p
  p

/-! ## Address normalizer (geocoding.py, `enhanced_clean`, lines 49–77)

The normalizer is modelled character-for-character over `List Char`:
`pd.isna(addr)` is the `none` case of an `Option` input; `str.upper` is the
ASCII case map `Char.toUpper` (Python's `str.upper` agrees on ASCII text);
`.strip()` removes leading and trailing whitespace;
`re.sub(r'[,.\x2d#]', ' ', addr)` replaces the four punctuation characters
by spaces; each `re.sub(r'\bKEY\b', REP, addr)` is a left-to-right scan
replacing non-overlapping whole-word occurrences (a word character is
`[A-Za-z0-9_]`; the scanner state after a match is the word-character
status of the key's last character, `true` for every pattern here); and
`re.sub(r'\s+', ' ', addr).strip()` collapses whitespace runs. -/

/-- Whitespace, as both Python's `str.strip` and `\s` see ASCII text. -/
def isWs (c : Char) : Bool := c.isWhitespace

/-- Word characters of the regex `\b` boundary: `[A-Za-z0-9_]`. -/
def isWordChar (c : Char) : Bool := c.isAlphanum || c = '_'

/-- The punctuation class `[,.\x2d#]` removed by the normalizer. -/
def isPunctChar (c : Char) : Bool := c = ',' || c = '.' || c = '-' || c = '#'

/-- Remove trailing whitespace characters. -/
def dropTrailWs : List Char → List Char
  | [] => []
  | c :: cs =>
    let r := dropTrailWs cs
    if r.isEmpty && isWs c then [] else c :: r

/-- Python's `str.strip()`: drop whitespace at both ends. -/
def pyStrip (s : List Char) : List Char :=
  dropTrailWs (s.dropWhile isWs)

/-- Python's `str.upper()` on ASCII text, character by character. -/
def pyUpper (s : List Char) : List Char :=
  s.map Char.toUpper

/-- The punctuation-to-space substitution `re.sub(r'[,.\x2d#]', ' ', addr)`. -/
def removePunct (s : List Char) : List Char :=
  s.map (fun c => if isPunctChar c then ' ' else c)

/-- Does `\bkey\b` match at the head of `s` (the left boundary having been
checked by the caller)?  The key must be a prefix and the following
character, if any, must not be a word character. -/
def matchesWordAt (key s : List Char) : Bool :=
  key.isPrefixOf s &&
    (match s.drop key.length with
     | [] => true
     | c :: _ => !isWordChar c)

/-- The scan of `re.sub(r'\bkey\b', rep, s)`: `prevW` says whether the
character before the current position is a word character (so that `\b`
holds exactly when it is not, the key starting with a word character).
After a match the scan resumes after the matched text of the original
string, whose last character (for the source's all-letter keys) is a word
character. -/
def subWordAux (key rep : List Char) (prevW : Bool) : List Char → List Char
  | [] => []
  | c :: cs =>
    if !prevW && matchesWordAt key (c :: cs) then
      rep ++ subWordAux key rep true (cs.drop (key.length - 1))
    else
      c :: subWordAux key rep (isWordChar c) cs
termination_by s => s.length
decreasing_by
  · simp only [List.length_cons, List.length_drop]
    omega
  · simp only [List.length_cons]
    omega

/-- One whole-word substitution over a whole string. -/
def subWord (key rep : List Char) (s : List Char) : List Char :=
  subWordAux key rep false s

/-- The ordered abbreviation table of `enhanced_clean`. -/
def replacements : List (List Char × List Char) :=
  [("STREET".toList, "ST".toList),
   ("AVENUE".toList, "AVE".toList),
   ("ROAD".toList, "RD".toList),
   ("DRIVE".toList, "DR".toList),
   ("LANE".toList, "LN".toList),
   ("COURT".toList, "CT".toList),
   ("CIRCLE".toList, "CIR".toList),
   ("PLACE".toList, "PL".toList)]

/-- Apply the eight whole-word substitutions in table order. -/
def applyReplacements (s : List Char) : List Char :=
  replacements.foldl (fun a kr => subWord kr.1 kr.2 a) s

/-! Auxiliary view used to reason about the whole-word substitutions: since
every pattern `\bKEY\b` of the table is a nonempty all-word-character
string, a match is exactly a maximal word-character run equal to the key,
so each substitution acts independently on the maximal word runs of the
string.  `mapRuns`, `allRuns`, `wordSubst` and `applyWordSubsts` make this
run structure explicit; `subWord key rep = mapRuns (wordSubst key rep)` is
proved below (`subWord_eq_mapRuns`). -/

/-- Pointwise substitution on one word. -/
def wordSubst (key rep w : List Char) : List Char :=
  if w = key then rep else w

/-- Map `f` over the maximal word-character runs of a string, leaving all
other characters in place. -/
def mapRuns (f : List Char → List Char) : List Char → List Char
  | [] => []
  | c :: cs =>
    if isWordChar c then
      f (c :: cs.takeWhile isWordChar) ++ mapRuns f (cs.dropWhile isWordChar)
    else c :: mapRuns f cs
termination_by s => s.length
decreasing_by
  · have := (List.dropWhile_sublist (l := cs) isWordChar).length_le
    simp only [List.length_cons]
    omega
  · simp only [List.length_cons]
    omega

/-- Do all maximal word-character runs of the string satisfy `ok`? -/
def allRuns (ok : List Char → Bool) : List Char → Bool
  | [] => true
  | c :: cs =>
    if isWordChar c then
      ok (c :: cs.takeWhile isWordChar) && allRuns ok (cs.dropWhile isWordChar)
    else allRuns ok cs
termination_by s => s.length
decreasing_by
  · have := (List.dropWhile_sublist (l := cs) isWordChar).length_le
    simp only [List.length_cons]
    omega
  · simp only [List.length_cons]
    omega

/-- The composite pointwise substitution of the whole abbreviation table on
one word. -/
def applyWordSubsts (w : List Char) : List Char :=
  replacements.foldl (fun a kr => wordSubst kr.1 kr.2 a) w

/-- Normal whitespace: every whitespace character is a plain space and is
not followed by another whitespace character (the fixed points of
`collapseWs`). -/
def wsNorm : List Char → Bool
  | [] => true
  | [c] => !isWs c || c = ' '
  | c :: d :: cs => (!isWs c || (c = ' ' && !isWs d)) && wsNorm (d :: cs)

/-- The whitespace collapse `re.sub(r'\s+', ' ', addr)`: each maximal
whitespace run becomes a single space. -/
def collapseWs : List Char → List Char
  | [] => []
  | c :: cs =>
    if isWs c then ' ' :: collapseWs (cs.dropWhile isWs)
    else c :: collapseWs cs
termination_by s => s.length
decreasing_by
  · have := (List.dropWhile_sublist (l := cs) isWs).length_le
    simp only [List.length_cons]
    omega
  · simp only [List.length_cons]
    omega

/-- The address normalizer `enhanced_clean` of `geocoding.py`:
`none` (a missing address) yields the empty string; otherwise uppercase and
strip, replace punctuation by spaces, apply the abbreviation table, and
collapse and strip whitespace. -/
def enhanced_clean (addr : Option (List Char)) : List Char :=
  match addr with
  | none => []
  | some a =>
    pyStrip (collapseWs (applyReplacements (removePunct (pyStrip (pyUpper a)))))

/-! ## Exact-match geocoder (geocoding.py, `ultra_fast_geocode_county`)

Voters carry the fields the geocoder reads; the reference address table
carries a (possibly missing) address string and a point geometry.  The
lookup is an insertion-ordered association list, mirroring the Python
dict built at lines 107–115. -/

/-- The voter-record fields read by the geocoder. -/
structure Voter where
  voter_status_desc : String
  res_street_address : Option (List Char)
  party_cd : String
deriving DecidableEq

/-- A reference point geometry (`row.geometry.x`, `row.geometry.y`). -/
structure AddrPoint where
  x : ℚ
  y : ℚ
deriving DecidableEq

/-- A row of the reference address table. -/
structure AddressRecord where
  address : Option (List Char)
  pt : AddrPoint
deriving DecidableEq

/-- First-match lookup in the association list (dict lookup). -/
def lookupFind (l : List (List Char × AddrPoint)) (k : List Char) : Option AddrPoint :=
  (l.find? (fun e => decide (e.1 = k))).map Prod.snd

/-- The lookup builder (lines 107–115): walk the reference rows in order;
a row whose cleaned address is nonempty and not yet a key is appended
(`addr_lookup[clean_addr] = {...}`), otherwise it is dropped. -/
def addr_lookup (addresses : List AddressRecord) : List (List Char × AddrPoint) :=
  addresses.foldl
    (fun acc row =>
      let k := enhanced_clean row.address
      if !k.isEmpty && (acc.find? (fun e => decide (e.1 = k))).isNone then
        acc ++ [(k, row.pt)]
      else acc)
    []

/-- A matched (geocoded) voter row: the voter's fields plus the looked-up
coordinate and the `matched` flag. -/
structure GeoVoter where
  voter : Voter
  x : ℚ
  y : ℚ
  matched : Bool
deriving DecidableEq

/-- The matching loop (lines 121–135): keep the ACTIVE voters, clean each
address, and on a lookup hit emit the voter with the coordinate and
`matched := true`; on a miss the voter is dropped. -/
def geocode_matches (voters : List Voter) (lookup : List (List Char × AddrPoint)) :
    List GeoVoter :=
  (voters.filter (fun v => decide (v.voter_status_desc = "ACTIVE"))).filterMap
    (fun v =>
      match lookupFind lookup (enhanced_clean v.res_street_address) with
      | some pt => some ⟨v, pt.x, pt.y, true⟩
      | none => none)

/-- The reported success rate (lines 152–153):
`(matched_count / total_voters) * 100 if total_voters > 0 else 0` where
`total_voters` is the number of ACTIVE voters. -/
def match_rate (voters : List Voter) (lookup : List (List Char × AddrPoint)) : ℚ :=
  let active := voters.filter (fun v => decide (v.voter_status_desc = "ACTIVE"))
  if active.length = 0 then 0
  else ((geocode_matches voters lookup).length : ℚ) / (active.length : ℚ) * 100

/-- The overall result of `ultra_fast_geocode_county` (lines 137–166): when
the match list is nonempty, the enriched dataset is returned and the output
file is written (second component `true`); when it is empty the function
prints a diagnostic and returns `None`, writing nothing. -/
def ultra_fast_geocode_county (voters : List Voter)
    (lookup : List (List Char × AddrPoint)) : Option (List GeoVoter) × Bool :=
  let ms := geocode_matches voters lookup
  if ms.isEmpty then (none, false) else (some ms, true)

/-! ## Parcel spatial join (spatial_joins.py, `spatial_join_county`)

`gpd.sjoin(voters, parcels, how='left', predicate='within')` emits one row
per (voter, containing parcel) pair, and a single row with null right-hand
attributes for a voter matching no parcel.  The `within` predicate is
instantiated with open axis-aligned rectangles (a faithful instance of
point-strictly-inside-polygon; the join logic does not depend on the
geometry's shape). -/

/-- A geocoded voter point, as the join sees it. -/
structure VoterPoint where
  x : ℚ
  y : ℚ
deriving DecidableEq

/-- A parcel: a rectangle with a (possibly missing) property value. -/
structure ParcelRect where
  x0 : ℚ
  x1 : ℚ
  y0 : ℚ
  y1 : ℚ
  parval : Option ℚ
deriving DecidableEq

/-- Point strictly inside the rectangle (shapely's `within`: boundary
points do not count). -/
def withinRect (p : VoterPoint) (r : ParcelRect) : Bool :=
  decide (r.x0 < p.x ∧ p.x < r.x1 ∧ r.y0 < p.y ∧ p.y < r.y1)

/-- The left `within` join: for each voter, one row per containing parcel
(carrying `index_right`), or a single unmatched row. -/
def sjoin_left_within (voters : List VoterPoint) (parcels : List ParcelRect) :
    List (VoterPoint × Option ℕ) :=
  voters.flatMap (fun v =>
    let hits := parcels.enum.filter (fun ip => withinRect v ip.2)
    if hits.isEmpty then [(v, none)] else hits.map (fun ip => (v, some ip.1)))

/-- A row of the joined dataset: the voter point, the matched parcel index
(`index_right`, `none` when unmatched), the carried property value, and the
stamped county. -/
structure JoinedRow where
  pt : VoterPoint
  parcel : Option ℕ
  parval : Option ℚ
  county : String
deriving DecidableEq

/-- `spatial_join_county` (lines 49–60): the left `within` join followed by
`joined['county'] = county_name`, which stamps the invocation's county name
onto every row. -/
def spatial_join_county (county_name : String) (voters : List VoterPoint)
    (parcels : List ParcelRect) : List JoinedRow :=
  (sjoin_left_within voters parcels).map (fun vi =>
    { pt := vi.1
      parcel := vi.2
      parval := vi.2.bind (fun i => (parcels.get? i).bind (fun p => p.parval))
      county := county_name })

/-- The reported join success rate (lines 55–56): rows with a non-null
`index_right` over the number of input voters, times 100. -/
def join_success_rate (voters : List VoterPoint) (parcels : List ParcelRect) : ℚ :=
  (((sjoin_left_within voters parcels).filter (fun vi => vi.2.isSome)).length : ℚ) /
      (voters.length : ℚ) * 100

end VoterPipeline

namespace VoterPipeline

/-- Squared distances are nonnegative. -/
theorem distSq_nonneg (p q : ℚ × ℚ) : 0 ≤ distSq p q := by
  unfold distSq
  positivity

/-- A squared distance vanishes exactly between equal points. -/
theorem distSq_eq_zero_iff (p q : ℚ × ℚ) : distSq p q = 0 ↔ q = p := by
  obtain ⟨px, py⟩ := p
  obtain ⟨qx, qy⟩ := q
  unfold distSq
  simp only [Prod.mk.injEq]
  constructor
  · intro h
    constructor <;> nlinarith [sq_nonneg (px - qx), sq_nonneg (py - qy)]
  · rintro ⟨rfl, rfl⟩
    ring

/-- C1 (amended): the density score of a point equals the number of dataset
points lying at a coordinate different from it and within 2000 distance
units of it.  (The claim's reading "points at an index different from it" is
refuted by `c1_counterexample`: the code's `distances > 0` filter also drops
other points co-located with the point.) -/
theorem c1_density_score_counts_distinct_points (pts : List (ℚ × ℚ)) (p : ℚ × ℚ) :
    densityScore pts p =
      pts.countP (fun q => decide (q ≠ p ∧ distSq p q ≤ 2000 ^ 2)) := by
  unfold densityScore
  refine List.countP_congr (fun q _ => ?_)
  simp only [decide_eq_true_eq]
  constructor
  · rintro ⟨hpos, hle⟩
    exact ⟨fun e => hpos.ne' ((distSq_eq_zero_iff p q).mpr e), hle⟩
  · rintro ⟨hne, hle⟩
    refine ⟨lt_of_le_of_ne (distSq_nonneg p q) ?_, hle⟩
    exact fun h0 => hne ((distSq_eq_zero_iff p q).mp h0.symm)

/-- C1 counterexample: on the dataset of two co-located points
`[(0,0), (0,0)]`, the code assigns density score 0 to the first point, while
the claim's count of "points at an index different from it within 2000
units" is 1. -/
theorem c1_counterexample :
    density_scores [((0 : ℚ), (0 : ℚ)), (0, 0)] = [0, 0] ∧
    specDensityScore [((0 : ℚ), (0 : ℚ)), (0, 0)] 0 = 1 := by
  constructor
  · simp [density_scores, densityScore, List.countP_cons, distSq]
  · simp [specDensityScore, List.enum, List.enumFrom, List.countP_cons, distSq, List.getD]

/-- Interpolated percentile values are monotone in the rank over a sorted
sample. -/
theorem npInterp_mono (ys : List ℚ) (hsort : ys.Sorted (· ≤ ·)) {pos1 pos2 : ℚ}
    (h1 : 0 ≤ pos1) (h12 : pos1 ≤ pos2) (h2 : pos2 ≤ (ys.length : ℚ) - 1) :
    npInterp ys pos1 ≤ npInterp ys pos2 := by
  unfold npInterp
  have hfl1 : (0 : ℤ) ≤ ⌊pos1⌋ := Int.floor_nonneg.mpr h1
  have hfl2 : (0 : ℤ) ≤ ⌊pos2⌋ := Int.floor_nonneg.mpr (le_trans h1 h12)
  set i1 : ℕ := (⌊pos1⌋).toNat with hi1def
  set i2 : ℕ := (⌊pos2⌋).toNat with hi2def
  have hc1 : ((i1 : ℚ)) = ((⌊pos1⌋ : ℤ) : ℚ) := by
    rw [hi1def]
    exact_mod_cast congrArg (fun z => ((z : ℤ) : ℚ)) (Int.toNat_of_nonneg hfl1)
  have hc2 : ((i2 : ℚ)) = ((⌊pos2⌋ : ℤ) : ℚ) := by
    rw [hi2def]
    exact_mod_cast congrArg (fun z => ((z : ℤ) : ℚ)) (Int.toNat_of_nonneg hfl2)
  have hle1 : (i1 : ℚ) ≤ pos1 := by rw [hc1]; exact Int.floor_le pos1
  have hle2 : (i2 : ℚ) ≤ pos2 := by rw [hc2]; exact Int.floor_le pos2
  have hlt1 : pos1 < (i1 : ℚ) + 1 := by
    rw [hc1]; exact_mod_cast Int.lt_floor_add_one pos1
  have hlt2 : pos2 < (i2 : ℚ) + 1 := by
    rw [hc2]; exact_mod_cast Int.lt_floor_add_one pos2
  have hi1n : i1 < ys.length := by
    have h : (i1 : ℚ) < (ys.length : ℚ) := by linarith
    exact_mod_cast h
  have hi2n : i2 < ys.length := by
    have h : (i2 : ℚ) < (ys.length : ℚ) := by linarith
    exact_mod_cast h
  have hi12 : i1 ≤ i2 := by
    have h : (i1 : ℚ) < (i2 : ℚ) + 1 := by linarith
    have h2n : i1 < i2 + 1 := by exact_mod_cast h
    omega
  have cell : ∀ (i : ℕ), i < ys.length →
      ys.getD i 0 ≤ ys.getD (i + 1) (ys.getD i 0) := by
    intro i hin
    rcases Nat.lt_or_ge (i + 1) ys.length with hlt | hge
    · rw [List.getD_eq_getElem _ _ hin, List.getD_eq_getElem _ _ hlt]
      have h := hsort.rel_get_of_le (a := ⟨i, hin⟩) (b := ⟨i + 1, hlt⟩) (by simp)
      simpa using h
    · rw [List.getD_eq_default _ _ hge]
  rcases Nat.eq_or_lt_of_le hi12 with heq | hlt12
  · rw [heq] at hle1 hlt1 ⊢
    have hcell := cell i2 hi2n
    nlinarith [hcell]
  · have hi1n1 : i1 + 1 < ys.length := lt_of_le_of_lt hlt12 hi2n
    have hhi1 : ys.getD (i1 + 1) (ys.getD i1 0) = ys.get ⟨i1 + 1, hi1n1⟩ := by
      rw [List.getD_eq_getElem _ _ hi1n1, List.get_eq_getElem]
    have hlo2 : ys.getD i2 0 = ys.get ⟨i2, hi2n⟩ := by
      rw [List.getD_eq_getElem _ _ hi2n, List.get_eq_getElem]
    have hstep : ys.get ⟨i1 + 1, hi1n1⟩ ≤ ys.get ⟨i2, hi2n⟩ := by
      refine hsort.rel_get_of_le ?_
      simpa using hlt12
    have hcell1 : ys.getD i1 0 ≤ ys.getD (i1 + 1) (ys.getD i1 0) := cell i1 hi1n
    have hcell2 : ys.getD i2 0 ≤ ys.getD (i2 + 1) (ys.getD i2 0) := cell i2 hi2n
    have hmid : ys.getD (i1 + 1) (ys.getD i1 0) ≤ ys.getD i2 0 := by
      rw [hhi1, hlo2]; exact hstep
    nlinarith [hcell1, hcell2, hmid]

/-- Percentiles are monotone in the requested quantile. -/
theorem npPercentile_mono (xs : List ℚ) {q1 q2 : ℚ} (h0 : 0 ≤ q1) (h12 : q1 ≤ q2)
    (h100 : q2 ≤ 100) : npPercentile xs q1 ≤ npPercentile xs q2 := by
  unfold npPercentile
  set ys := xs.insertionSort (· ≤ ·) with hys
  have hsort : ys.Sorted (· ≤ ·) := List.sorted_insertionSort _ xs
  rcases Nat.eq_zero_or_pos ys.length with hn | hn
  · rw [List.length_eq_zero] at hn
    simp [hn, npInterp, List.getD]
  · have hn1 : (1 : ℚ) ≤ (ys.length : ℚ) := by exact_mod_cast hn
    have hc : (0 : ℚ) ≤ (ys.length : ℚ) - 1 := by linarith
    apply npInterp_mono ys hsort
    · nlinarith [mul_nonneg h0 hc]
    · nlinarith [mul_nonneg (sub_nonneg.mpr h12) hc]
    · nlinarith [mul_nonneg (sub_nonneg.mpr h100) hc]

/-- C2 (amended): with `u` the 75th and `r` the 25th percentile of the
density scores, a score `≤ r` is labelled Rural, a score `≥ u` that is not
`≤ r` is labelled Urban, and all remaining scores are labelled Suburban.
The Rural assignment is applied second in the source, so where both
inclusive threshold conditions hold at once (possible only when `u = r`)
the label is Rural, not Urban as the claim states. -/
theorem c2_urban_rural_thresholds (scores : List ℚ) (i : ℕ) (h : i < scores.length) :
    npPercentile scores 25 ≤ npPercentile scores 75 ∧
    (urban_rural scores).getD i "" =
      (if scores.getD i 0 ≤ npPercentile scores 25 then "Rural"
       else if npPercentile scores 75 ≤ scores.getD i 0 then "Urban"
       else "Suburban") := by
  refine ⟨npPercentile_mono scores (by norm_num) (by norm_num) (by norm_num), ?_⟩
  unfold urban_rural
  have hm : i < (scores.map (fun s =>
      let lab := "Suburban"
      let lab := if npPercentile scores 75 ≤ s then "Urban" else lab
      let lab := if s ≤ npPercentile scores 25 then "Rural" else lab
      lab)).length := by simpa using h
  rw [List.getD_eq_getElem _ _ hm, List.getElem_map, List.getD_eq_getElem _ _ h]

/-- Witness for `c2_urban_rural_thresholds` at the concrete score list
`[0, 1, 2, 3]` and index 0. -/
theorem c2_urban_rural_thresholds_witness :
    npPercentile [(0 : ℚ), 1, 2, 3] 25 ≤ npPercentile [(0 : ℚ), 1, 2, 3] 75 ∧
    (urban_rural [0, 1, 2, 3]).getD 0 "" =
      (if ([(0 : ℚ), 1, 2, 3]).getD 0 0 ≤ npPercentile [0, 1, 2, 3] 25 then "Rural"
       else if npPercentile [0, 1, 2, 3] 75 ≤ ([(0 : ℚ), 1, 2, 3]).getD 0 0 then "Urban"
       else "Suburban") :=
  c2_urban_rural_thresholds [0, 1, 2, 3] 0 (by norm_num)

/-- C2 counterexample: on the dataset `[(0,0), (100000,0)]` every density
score is 0, so both percentile thresholds are 0; the first point's score is
`≥` the 75th percentile, yet the code labels it `"Rural"`, not `"Urban"` as
the claim requires. -/
theorem c2_counterexample :
    analysis_1_urban_rural_classification [((0 : ℚ), (0 : ℚ)), (100000, 0)] =
      ["Rural", "Rural"] ∧
    npPercentile
        ((density_scores [((0 : ℚ), (0 : ℚ)), (100000, 0)]).map (fun n => (n : ℚ))) 75 ≤
      ((density_scores [((0 : ℚ), (0 : ℚ)), (100000, 0)]).map (fun n => (n : ℚ))).getD 0 0 := by
  have hd : density_scores [((0 : ℚ), (0 : ℚ)), (100000, 0)] = [0, 0] := by
    simp [density_scores, densityScore, List.countP_cons, distSq]
    norm_num
  have hm : (density_scores [((0 : ℚ), (0 : ℚ)), (100000, 0)]).map (fun n => (n : ℚ)) =
      [(0 : ℚ), 0] := by
    rw [hd]
    norm_num
  have hp : npPercentile [(0 : ℚ), 0] 75 = 0 := by
    simp [npPercentile, npInterp, List.insertionSort, List.orderedInsert]
    norm_num
  have hp25 : npPercentile [(0 : ℚ), 0] 25 = 0 := by
    simp [npPercentile, npInterp, List.insertionSort, List.orderedInsert]
    norm_num
  constructor
  · unfold analysis_1_urban_rural_classification
    rw [hm]
    unfold urban_rural
    rw [hp, hp25]
    norm_num
  · rw [hm, hp]
    simp [List.getD]

/-- Looking a key up after appending a binding for a different key is
unchanged. -/
theorem lookupFind_append_single_ne (acc : List (List Char × AddrPoint)) (k0 k : List Char)
    (pt : AddrPoint) (h : k0 ≠ k) :
    lookupFind (acc ++ [(k0, pt)]) k = lookupFind acc k := by
  unfold lookupFind
  rw [List.find?_append]
  cases hf : acc.find? (fun e => decide (e.1 = k)) with
  | some v => simp [Option.or]
  | none => simp [h]

/-- Looking a key up after appending a binding for it, when it was absent,
finds the new binding. -/
theorem lookupFind_append_single_eq (acc : List (List Char × AddrPoint)) (k : List Char)
    (pt : AddrPoint) (h : lookupFind acc k = none) :
    lookupFind (acc ++ [(k, pt)]) k = some pt := by
  unfold lookupFind at h ⊢
  rw [List.find?_append]
  rcases Option.map_eq_none.mp h with hf
  simp [hf]

/-- Effect of the lookup-builder fold from an arbitrary accumulator: an
existing binding survives, and otherwise the first remaining row whose
cleaned address equals the (nonempty) key provides the binding. -/
theorem addr_lookup_foldl (rows : List AddressRecord) (acc : List (List Char × AddrPoint))
    (k : List Char) :
    lookupFind (rows.foldl
        (fun acc row =>
          let k := enhanced_clean row.address
          if !k.isEmpty && (acc.find? (fun e => decide (e.1 = k))).isNone then
            acc ++ [(k, row.pt)]
          else acc)
        acc) k =
      (match lookupFind acc k with
       | some v => some v
       | none =>
         if k = [] then none
         else (rows.find? (fun row => decide (enhanced_clean row.address = k))).map
                (fun r => r.pt)) := by
  induction rows generalizing acc with
  | nil =>
    simp only [List.foldl_nil, List.find?_nil]
    cases h : lookupFind acc k with
    | some v => rfl
    | none => simp
  | cons row rows ih =>
    simp only [List.foldl_cons]
    by_cases hcond : (!(enhanced_clean row.address).isEmpty &&
        (acc.find? (fun e => decide (e.1 = enhanced_clean row.address))).isNone) = true
    · rw [if_pos hcond, ih]
      obtain ⟨hne, hnone⟩ := Bool.and_eq_true_iff.mp hcond
      have hkne : enhanced_clean row.address ≠ [] := by
        intro e
        rw [e] at hne
        exact Bool.false_ne_true hne
      have hfnone : lookupFind acc (enhanced_clean row.address) = none := by
        unfold lookupFind
        rw [Option.isNone_iff_eq_none.mp hnone]
        rfl
      by_cases hk : enhanced_clean row.address = k
      · rw [← hk]
        rw [lookupFind_append_single_eq acc _ row.pt hfnone, hfnone]
        simp [hkne, List.find?_cons]
      · rw [lookupFind_append_single_ne acc _ k row.pt hk]
        cases h : lookupFind acc k with
        | some v => rfl
        | none =>
          by_cases hke : k = []
          · simp [hke]
          · simp [hke, List.find?_cons, hk]
    · rw [if_neg hcond, ih]
      cases h : lookupFind acc k with
      | some v => rfl
      | none =>
        by_cases hke : k = []
        · simp [hke]
        · have hrow : decide (enhanced_clean row.address = k) = false := by
            apply decide_eq_false
            intro he
            have hc : (!(enhanced_clean row.address).isEmpty &&
                (acc.find? (fun e => decide (e.1 = enhanced_clean row.address))).isNone)
                = false := Bool.not_eq_true _ |>.mp hcond
            rcases Bool.and_eq_false_iff.mp hc with h1 | h2
            · have : (enhanced_clean row.address).isEmpty = true := by
                cases hb : (enhanced_clean row.address).isEmpty
                · rw [hb] at h1; exact absurd h1 (by simp)
                · rfl
              have : enhanced_clean row.address = [] := List.isEmpty_iff.mp this
              rw [this] at he
              exact hke he.symm
            · have hs : (acc.find? (fun e => decide (e.1 = enhanced_clean row.address))).isNone
                  = false := h2
              rw [he] at hs
              unfold lookupFind at h
              cases hf : acc.find? (fun e => decide (e.1 = k)) with
              | some w => rw [hf] at h; simp at h
              | none => rw [hf] at hs; simp at hs
          simp [hke, List.find?_cons, hrow]

theorem c6_addr_lookup_first_wins (addresses : List AddressRecord) (k : List Char) :
    lookupFind (addr_lookup addresses) k =
      (if k = [] then none
       else (addresses.find? (fun row => decide (enhanced_clean row.address = k))).map
              (fun r => r.pt)) := by
  unfold addr_lookup
  rw [addr_lookup_foldl addresses [] k]
  rfl

/-- C4: a row is in the geocoder's output exactly when it is an ACTIVE
voter of the input whose normalized address hits the lookup; the row then
carries the lookup coordinate for its key and `matched = true`.  Voters of
any other status, or whose key misses the lookup, appear nowhere. -/
theorem c4_geocode_matches_characterization (voters : List Voter)
    (lookup : List (List Char × AddrPoint)) (r : GeoVoter) :
    r ∈ geocode_matches voters lookup ↔
      r.voter ∈ voters ∧ r.voter.voter_status_desc = "ACTIVE" ∧
        lookupFind lookup (enhanced_clean r.voter.res_street_address) =
          some ⟨r.x, r.y⟩ ∧
        r.matched = true := by
  unfold geocode_matches
  rw [List.mem_filterMap]
  constructor
  · rintro ⟨v, hv, hsome⟩
    rw [List.mem_filter] at hv
    obtain ⟨hvmem, hstat⟩ := hv
    cases hl : lookupFind lookup (enhanced_clean v.res_street_address) with
    | none =>
      rw [hl] at hsome
      exact absurd hsome (by simp)
    | some pt =>
      rw [hl] at hsome
      simp only [Option.some.injEq] at hsome
      rw [← hsome]
      refine ⟨hvmem, by simpa using hstat, ?_, rfl⟩
      rw [hl]
  · rintro ⟨hmem, hstat, hl, hm⟩
    refine ⟨r.voter, ?_, ?_⟩
    · rw [List.mem_filter]
      exact ⟨hmem, by simp [hstat]⟩
    · rw [hl]
      obtain ⟨v, x, y, m⟩ := r
      simp only at hm
      rw [hm]

/-- C5: the number of matched voters never exceeds the number of ACTIVE
voters, and the reported match rate (0 when there is no active voter) lies
in [0, 100]. -/
theorem c5_match_rate_bounds (voters : List Voter)
    (lookup : List (List Char × AddrPoint)) :
    (geocode_matches voters lookup).length ≤
      (voters.filter (fun v => decide (v.voter_status_desc = "ACTIVE"))).length ∧
    0 ≤ match_rate voters lookup ∧ match_rate voters lookup ≤ 100 := by
  have hle : (geocode_matches voters lookup).length ≤
      (voters.filter (fun v => decide (v.voter_status_desc = "ACTIVE"))).length :=
    List.length_filterMap_le _ _
  refine ⟨hle, ?_, ?_⟩ <;> simp only [match_rate]
  · split
    · norm_num
    · positivity
  · split
    · norm_num
    · rename_i h
      have hapos : 0 < ((voters.filter
          (fun v => decide (v.voter_status_desc = "ACTIVE"))).length : ℚ) := by
        have := Nat.pos_of_ne_zero h
        exact_mod_cast this
      rw [div_mul_eq_mul_div, div_le_iff₀ hapos]
      have hc : ((geocode_matches voters lookup).length : ℚ) ≤
          ((voters.filter (fun v => decide (v.voter_status_desc = "ACTIVE"))).length : ℚ) := by
        exact_mod_cast hle
      nlinarith

/-- C9: with zero matches the geocoder returns `None` and writes no output
file; a non-null result is returned (and the file written) exactly when at
least one voter matched, and any returned dataset is nonempty. -/
theorem c9_empty_matches_yield_none (voters : List Voter)
    (lookup : List (List Char × AddrPoint)) :
    ((ultra_fast_geocode_county voters lookup).1 = none ↔
      geocode_matches voters lookup = []) ∧
    ((ultra_fast_geocode_county voters lookup).2 = true ↔
      ¬ geocode_matches voters lookup = []) ∧
    (∀ out, (ultra_fast_geocode_county voters lookup).1 = some out →
      0 < out.length) := by
  simp only [ultra_fast_geocode_county]
  by_cases h : (geocode_matches voters lookup).isEmpty
  · have he : geocode_matches voters lookup = [] := List.isEmpty_iff.mp h
    rw [if_pos h]
    refine ⟨by simp [he], by simp [he], ?_⟩
    intro out hout
    exact absurd hout (by simp)
  · have he : ¬ geocode_matches voters lookup = [] := by
      intro e
      exact h (by rw [e]; rfl)
    rw [if_neg h]
    refine ⟨by simp [he], by simp [he], ?_⟩
    intro out hout
    simp only [Option.some.injEq] at hout
    rw [← hout]
    exact List.length_pos.mpr he

/-- C7: every row of the parcel join output carries the county name passed
to the invocation, independently of its geometry and attributes. -/
theorem c7_county_stamped (county_name : String) (voters : List VoterPoint)
    (parcels : List ParcelRect) (r : JoinedRow)
    (hr : r ∈ spatial_join_county county_name voters parcels) :
    r.county = county_name := by
  unfold spatial_join_county at hr
  rw [List.mem_map] at hr
  obtain ⟨vi, hvi, hre⟩ := hr
  rw [← hre]

/-- Witness for `c7_county_stamped`: a one-voter, zero-parcel join. -/
theorem c7_county_stamped_witness :
    (⟨⟨0, 0⟩, none, none, "Pitt"⟩ : JoinedRow).county = "Pitt" :=
  c7_county_stamped "Pitt" [⟨0, 0⟩] [] ⟨⟨0, 0⟩, none, none, "Pitt"⟩ (by
    have he : spatial_join_county "Pitt" [⟨0, 0⟩] [] =
        [⟨⟨0, 0⟩, none, none, "Pitt"⟩] := rfl
    rw [he]
    exact List.mem_singleton.mpr rfl)

/-- Counting the parcels by a predicate equals the length of the filtered
enumerated parcel list. -/
theorem length_filter_enumFrom (p : ParcelRect → Bool) (l : List ParcelRect) (k : ℕ) :
    ((List.enumFrom k l).filter (fun ip => p ip.2)).length = l.countP p := by
  induction l generalizing k with
  | nil => rfl
  | cons x xs ih =>
    simp only [List.enumFrom, List.filter_cons, List.countP_cons]
    cases hp : p x <;> simp [hp, ih]

/-- C10: the left `within` join emits one row per (voter, containing
parcel) pair and at least one row per voter; a voter strictly inside two
overlapping parcels yields two output rows, so the reported join success
rate can exceed 100 (here it is 200). -/
theorem c10_sjoin_row_counts :
    (∀ (voters : List VoterPoint) (parcels : List ParcelRect),
        (sjoin_left_within voters parcels).length =
          (voters.map (fun v => max 1 (parcels.countP (fun p => withinRect v p)))).sum ∧
        voters.length ≤ (sjoin_left_within voters parcels).length) ∧
    (∀ (c : String) (voters : List VoterPoint) (parcels : List ParcelRect)
        (r : JoinedRow), r ∈ spatial_join_county c voters parcels →
          r.parcel = none → r.parval = none) ∧
    (sjoin_left_within [⟨0, 0⟩]
        [⟨-1, 1, -1, 1, none⟩, ⟨-1, 1, -1, 1, none⟩]).map Prod.fst =
      [⟨0, 0⟩, ⟨0, 0⟩] ∧
    join_success_rate [⟨0, 0⟩] [⟨-1, 1, -1, 1, none⟩, ⟨-1, 1, -1, 1, none⟩] = 200 ∧
    (100 : ℚ) <
      join_success_rate [⟨0, 0⟩] [⟨-1, 1, -1, 1, none⟩, ⟨-1, 1, -1, 1, none⟩] := by
  have hwithin : withinRect ⟨0, 0⟩ ⟨-1, 1, -1, 1, none⟩ = true := by
    unfold withinRect
    rw [decide_eq_true_eq]
    norm_num
  have hsj : sjoin_left_within [⟨0, 0⟩]
      [⟨-1, 1, -1, 1, none⟩, ⟨-1, 1, -1, 1, none⟩] =
      [(⟨0, 0⟩, some 0), (⟨0, 0⟩, some 1)] := by
    unfold sjoin_left_within
    simp [List.enum, List.enumFrom, List.filter_cons, hwithin]
  refine ⟨?_, ?_, ?_, ?_, ?_⟩
  · intro voters parcels
    have hpoint : ∀ v : VoterPoint,
        (if (parcels.enum.filter (fun ip => withinRect v ip.2)).isEmpty then
            [(v, (none : Option ℕ))]
          else (parcels.enum.filter (fun ip => withinRect v ip.2)).map
            (fun ip => (v, some ip.1))).length =
          max 1 (parcels.countP (fun p => withinRect v p)) := by
      intro v
      have hcount : (parcels.enum.filter (fun ip => withinRect v ip.2)).length =
          parcels.countP (fun p => withinRect v p) := by
        have he : parcels.enum = List.enumFrom 0 parcels := rfl
        rw [he, length_filter_enumFrom]
      cases hh : (parcels.enum.filter (fun ip => withinRect v ip.2)).isEmpty
      · have hne : parcels.enum.filter (fun ip => withinRect v ip.2) ≠ [] := by
          intro e
          rw [e] at hh
          simp at hh
        have hpos : 0 < parcels.countP (fun p => withinRect v p) := by
          rw [← hcount]
          exact List.length_pos.mpr hne
        simp only [Bool.false_eq_true, if_false, List.length_map]
        rw [hcount, Nat.max_eq_right hpos]
      · have he0 : parcels.enum.filter (fun ip => withinRect v ip.2) = [] :=
          List.isEmpty_iff.mp hh
        have h0 : parcels.countP (fun p => withinRect v p) = 0 := by
          rw [← hcount, he0]
          rfl
        simp [h0]
    have hlen : (sjoin_left_within voters parcels).length =
        (voters.map (fun v => max 1 (parcels.countP (fun p => withinRect v p)))).sum := by
      unfold sjoin_left_within
      rw [List.length_flatMap]
      congr 1
      refine List.map_congr_left (fun v _ => ?_)
      exact hpoint v
    refine ⟨hlen, ?_⟩
    rw [hlen]
    have key : ∀ l : List VoterPoint, l.length ≤
        (l.map (fun v => max 1 (parcels.countP (fun p => withinRect v p)))).sum := by
      intro l
      induction l with
      | nil => simp
      | cons x xs ih =>
        simp only [List.map_cons, List.sum_cons, List.length_cons]
        have hx : 1 ≤ max 1 (parcels.countP (fun p => withinRect x p)) :=
          Nat.le_max_left _ _
        omega
    exact key voters
  · intro c voters parcels r hr hp
    unfold spatial_join_county at hr
    rw [List.mem_map] at hr
    obtain ⟨vi, hvi, hre⟩ := hr
    rw [← hre] at hp ⊢
    simp only at hp ⊢
    rw [hp]
    rfl
  · rw [hsj]
    rfl
  · unfold join_success_rate
    rw [hsj]
    norm_num
  · unfold join_success_rate
    rw [hsj]
    norm_num

/-- C8: registration-period bucketing is total: a missing (unparseable) date
year is bucketed `"Unknown"`, and every parsed year lands in exactly one of
the four period categories (the four ranges partition `ℤ`), never
`"Unknown"`. -/
theorem c8_registration_period_total :
    registration_period none = "Unknown" ∧
    (∀ y : ℤ, registration_period (some y) =
        (if y < 2000 then "Before 2000"
         else if y < 2010 then "2000-2009"
         else if y < 2020 then "2010-2019"
         else "2020-Present") ∧
      registration_period (some y) ≠ "Unknown") := by
  refine ⟨rfl, fun y => ?_⟩
  unfold registration_period optLT optGE
  by_cases h1 : y < 2000
  · have g1 : ¬ (2000 : ℤ) ≤ y := by omega
    have g2 : ¬ (2010 : ℤ) ≤ y := by omega
    have g3 : ¬ (2020 : ℤ) ≤ y := by omega
    simp [h1, g1, g2, g3]
  · by_cases h2 : y < 2010
    · have g1 : (2000 : ℤ) ≤ y := by omega
      have g2 : ¬ (2010 : ℤ) ≤ y := by omega
      have g3 : ¬ (2020 : ℤ) ≤ y := by omega
      simp [h1, h2, g1, g2, g3]
    · by_cases h3 : y < 2020
      · have g1 : (2010 : ℤ) ≤ y := by omega
        have g2 : ¬ (2020 : ℤ) ≤ y := by omega
        simp [h1, h2, h3, g1, g2]
      · have g1 : (2020 : ℤ) ≤ y := by omega
        simp [h1, h2, h3, g1]


/-! ### Toolkit for the address-normalizer development -/

/-- Word characters are never whitespace. -/
theorem not_isWs_of_isWordChar (c : Char) (h : isWordChar c = true) : isWs c = false := by
  by_cases h1 : c = ' '
  · subst h1; exact absurd h (by decide)
  by_cases h2 : c = '\t'
  · subst h2; exact absurd h (by decide)
  by_cases h3 : c = '\r'
  · subst h3; exact absurd h (by decide)
  by_cases h4 : c = '\n'
  · subst h4; exact absurd h (by decide)
  unfold isWs Char.isWhitespace
  simp [h1, h2, h3, h4]

/-- Taking while `p` past an all-`p` prefix stops at a non-`p` head. -/
theorem takeWhile_append_stop (p : Char → Bool) (u v : List Char)
    (hu : ∀ c ∈ u, p c = true) (hv : ∀ d, v.head? = some d → p d = false) :
    (u ++ v).takeWhile p = u := by
  induction u with
  | nil =>
    cases v with
    | nil => rfl
    | cons d ds =>
      have hd := hv d rfl
      simp [List.takeWhile_cons, hd]
  | cons c u ih =>
    have hc := hu c (by simp)
    simp only [List.cons_append, List.takeWhile_cons_of_pos hc]
    rw [ih (fun c hm => hu c (by simp [hm]))]

/-- Dropping while `p` past an all-`p` prefix reaches the suffix. -/
theorem dropWhile_append_stop (p : Char → Bool) (u v : List Char)
    (hu : ∀ c ∈ u, p c = true) (hv : ∀ d, v.head? = some d → p d = false) :
    (u ++ v).dropWhile p = v := by
  induction u with
  | nil =>
    cases v with
    | nil => rfl
    | cons d ds =>
      have hd := hv d rfl
      simp [List.dropWhile_cons, hd]
  | cons c u ih =>
    have hc := hu c (by simp)
    simp only [List.cons_append, List.dropWhile_cons_of_pos hc]
    exact ih (fun c hm => hu c (by simp [hm]))

/-- Dropping the length of the taken prefix is dropping while. -/
theorem drop_takeWhile_length (p : Char → Bool) (l : List Char) :
    l.drop (l.takeWhile p).length = l.dropWhile p := by
  induction l with
  | nil => rfl
  | cons c cs ih =>
    cases hc : p c
    · rw [List.takeWhile_cons_of_neg (by simp [hc]), List.dropWhile_cons_of_neg (by simp [hc])]
      rfl
    · rw [List.takeWhile_cons_of_pos hc, List.dropWhile_cons_of_pos hc]
      simp only [List.length_cons, List.drop_succ_cons]
      exact ih

/-- The head surviving `dropWhile p` fails `p`. -/
theorem dropWhile_head_not (p : Char → Bool) (l : List Char) (d : Char)
    (hd : (l.dropWhile p).head? = some d) : p d = false := by
  induction l with
  | nil => simp at hd
  | cons c cs ih =>
    by_cases hc : p c = true
    · rw [List.dropWhile_cons_of_pos hc] at hd
      exact ih hd
    · rw [List.dropWhile_cons_of_neg hc] at hd
      simp only [List.head?_cons, Option.some.injEq] at hd
      rw [← hd]
      exact Bool.not_eq_true _ |>.mp hc

/-- `mapRuns` on a non-word head copies it. -/
theorem mapRuns_cons_nonword (f : List Char → List Char) (d : Char) (ds : List Char)
    (hd : isWordChar d = false) : mapRuns f (d :: ds) = d :: mapRuns f ds := by
  rw [mapRuns]
  simp [hd]

/-- `mapRuns` on a word head substitutes the whole leading run. -/
theorem mapRuns_cons_word (f : List Char → List Char) (c : Char) (cs : List Char)
    (hc : isWordChar c = true) :
    mapRuns f (c :: cs) =
      f (c :: cs.takeWhile isWordChar) ++ mapRuns f (cs.dropWhile isWordChar) := by
  rw [mapRuns]
  simp [hc]

/-- `allRuns` on a non-word head skips it. -/
theorem allRuns_cons_nonword (ok : List Char → Bool) (d : Char) (ds : List Char)
    (hd : isWordChar d = false) : allRuns ok (d :: ds) = allRuns ok ds := by
  rw [allRuns]
  simp [hd]

/-- `allRuns` on a word head tests the whole leading run. -/
theorem allRuns_cons_word (ok : List Char → Bool) (c : Char) (cs : List Char)
    (hc : isWordChar c = true) :
    allRuns ok (c :: cs) =
      (ok (c :: cs.takeWhile isWordChar) && allRuns ok (cs.dropWhile isWordChar)) := by
  rw [allRuns]
  simp [hc]


/-- Dropping while a predicate holds never lengthens a list. -/
theorem dropWhile_length_le (p : Char → Bool) (l : List Char) :
    (l.dropWhile p).length ≤ l.length :=
  (List.dropWhile_sublist p).length_le

/-- With a word character immediately before, the scanner copies a word run
(no `\\b` boundary can occur inside it). -/
theorem subWordAux_copy_run (key rep run rest : List Char)
    (hrun : ∀ c ∈ run, isWordChar c = true) :
    subWordAux key rep true (run ++ rest) = run ++ subWordAux key rep true rest := by
  induction run with
  | nil => rfl
  | cons c run ih =>
    have hc := hrun c (by simp)
    rw [List.cons_append, subWordAux]
    simp only [Bool.not_true, Bool.false_and, Bool.false_eq_true, if_false, hc]
    rw [ih (fun c hm => hrun c (by simp [hm]))]
    rfl

/-- At the end of the string or before a non-word character, the scanner
state is irrelevant (no match can start with a non-word character). -/
theorem subWordAux_state_irrel (key rep : List Char) (k0 : Char) (ks : List Char)
    (hk : key = k0 :: ks) (hk0 : isWordChar k0 = true) (b1 b2 : Bool) (s : List Char)
    (hs : ∀ d, s.head? = some d → isWordChar d = false) :
    subWordAux key rep b1 s = subWordAux key rep b2 s := by
  cases s with
  | nil => rw [subWordAux, subWordAux]
  | cons d ds =>
    have hd := hs d rfl
    have hne : (k0 == d) = false := by
      apply beq_eq_false_iff_ne.mpr
      intro e
      rw [e] at hk0
      rw [hk0] at hd
      simp at hd
    have hnm : matchesWordAt key (d :: ds) = false := by
      unfold matchesWordAt
      subst hk
      simp [List.isPrefixOf, hne]
    rw [subWordAux, subWordAux]
    simp [hnm]

/-- For a nonempty all-word key, `\\b key \\b` matches at a position exactly
when the maximal word run starting there is the key itself. -/
theorem matchesWordAt_iff_takeWhile (key : List Char)
    (hkey : ∀ c ∈ key, isWordChar c = true) (hne : key ≠ []) (s : List Char) :
    matchesWordAt key s = true ↔ s.takeWhile isWordChar = key := by
  unfold matchesWordAt
  constructor
  · intro h
    obtain ⟨hpre, hb⟩ := Bool.and_eq_true_iff.mp h
    obtain ⟨t, ht⟩ := List.isPrefixOf_iff_prefix.mp hpre
    have hdrop : s.drop key.length = t := by
      rw [← ht]
      exact List.drop_left key t
    rw [← ht]
    apply takeWhile_append_stop _ _ _ hkey
    intro d hd
    rw [hdrop] at hb
    cases t with
    | nil => simp at hd
    | cons e es =>
      simp only [List.head?_cons, Option.some.injEq] at hd
      rw [← hd]
      simpa using hb
  · intro h
    have hpre : key <+: s := h ▸ List.takeWhile_prefix _
    have hpb : key.isPrefixOf s = true := List.isPrefixOf_iff_prefix.mpr hpre
    rw [hpb]
    simp only [Bool.true_and]
    have hdrop : s.drop key.length = s.dropWhile isWordChar := by
      conv_lhs => rw [← h]
      exact drop_takeWhile_length _ s
    rw [hdrop]
    cases hq : s.dropWhile isWordChar with
    | nil => rfl
    | cons e es =>
      have he : isWordChar e = false := dropWhile_head_not _ s e (by rw [hq]; rfl)
      simp [he]

/-- The one-pattern substitution scanner equals the pointwise substitution
on maximal word runs, for a nonempty all-word-character key. -/
theorem subWordAux_eq_mapRuns (key rep : List Char)
    (hkey : ∀ c ∈ key, isWordChar c = true) (hne : key ≠ []) (s : List Char) :
    subWordAux key rep false s = mapRuns (wordSubst key rep) s := by
  obtain ⟨k0, ks, hk⟩ : ∃ k0 ks, key = k0 :: ks := by
    cases key with
    | nil => exact absurd rfl hne
    | cons a b => exact ⟨a, b, rfl⟩
  have hk0 : isWordChar k0 = true := hkey k0 (by rw [hk]; simp)
  cases s with
  | nil => rw [subWordAux, mapRuns]
  | cons c cs =>
    by_cases hc : isWordChar c = true
    · have hrest : ∀ d, (cs.dropWhile isWordChar).head? = some d → isWordChar d = false :=
        fun d hd => dropWhile_head_not _ cs d hd
      by_cases hm : matchesWordAt key (c :: cs) = true
      · have hrun : (c :: cs).takeWhile isWordChar = key :=
          (matchesWordAt_iff_takeWhile key hkey hne _).mp hm
        have hrun2 : c :: cs.takeWhile isWordChar = key := by
          rw [← List.takeWhile_cons_of_pos hc]
          exact hrun
        have hkl : key.length - 1 = (cs.takeWhile isWordChar).length := by
          rw [← hrun2]
          simp
        have hdrop : cs.drop (key.length - 1) = cs.dropWhile isWordChar := by
          rw [hkl]
          exact drop_takeWhile_length _ cs
        rw [subWordAux]
        simp only [Bool.not_false, Bool.true_and, hm, if_true]
        rw [hdrop]
        rw [subWordAux_state_irrel key rep k0 ks hk hk0 true false _ hrest]
        rw [subWordAux_eq_mapRuns key rep hkey hne (cs.dropWhile isWordChar)]
        rw [mapRuns_cons_word _ c cs hc, hrun2, wordSubst, if_pos rfl]
      · have hrun_ne : c :: cs.takeWhile isWordChar ≠ key := by
          intro e
          apply hm
          apply (matchesWordAt_iff_takeWhile key hkey hne _).mpr
          rw [List.takeWhile_cons_of_pos hc]
          exact e
        rw [subWordAux]
        simp only [Bool.not_false, Bool.true_and]
        rw [if_neg (by simp [hm])]
        rw [hc]
        have h1 : subWordAux key rep true cs =
            cs.takeWhile isWordChar ++ subWordAux key rep true (cs.dropWhile isWordChar) := by
          conv_lhs => rw [← List.takeWhile_append_dropWhile isWordChar cs]
          exact subWordAux_copy_run key rep _ _ (fun c hm => List.mem_takeWhile_imp hm)
        rw [h1]
        rw [subWordAux_state_irrel key rep k0 ks hk hk0 true false _ hrest]
        rw [subWordAux_eq_mapRuns key rep hkey hne (cs.dropWhile isWordChar)]
        rw [mapRuns_cons_word _ c cs hc]
        rw [wordSubst, if_neg hrun_ne]
        simp
    · have hcf : isWordChar c = false := Bool.not_eq_true _ |>.mp hc
      have hnm : matchesWordAt key (c :: cs) = false := by
        cases hq : matchesWordAt key (c :: cs)
        · rfl
        · have he := (matchesWordAt_iff_takeWhile key hkey hne _).mp hq
          rw [List.takeWhile_cons_of_neg (by simp [hcf])] at he
          exact absurd he.symm hne
      rw [subWordAux]
      rw [if_neg (by simp [hnm])]
      rw [mapRuns_cons_nonword _ c cs hcf, hcf]
      congr 1
      exact subWordAux_eq_mapRuns key rep hkey hne cs
termination_by s.length
decreasing_by
  all_goals
    simp only [List.length_cons]
  all_goals
    first
      | exact Nat.lt_succ_of_le (dropWhile_length_le _ _)
      | exact Nat.lt_succ_self _


/-- A run map preserves a non-word (or absent) head. -/
theorem mapRuns_nonword_head_pres (f : List Char → List Char) (v : List Char)
    (hv : ∀ d, v.head? = some d → isWordChar d = false) :
    ∀ d, (mapRuns f v).head? = some d → isWordChar d = false := by
  cases v with
  | nil =>
    intro d hd
    rw [mapRuns] at hd
    simp at hd
  | cons e es =>
    have he := hv e rfl
    rw [mapRuns_cons_nonword f e es he]
    intro d hd
    simp only [List.head?_cons, Option.some.injEq] at hd
    rw [← hd]
    exact he

/-- A run map acts on a leading word run followed by a non-word boundary. -/
theorem mapRuns_append_run (f : List Char → List Char) (u v : List Char) (hu0 : u ≠ [])
    (huw : ∀ c ∈ u, isWordChar c = true)
    (hv : ∀ d, v.head? = some d → isWordChar d = false) :
    mapRuns f (u ++ v) = f u ++ mapRuns f v := by
  cases u with
  | nil => exact absurd rfl hu0
  | cons c u2 =>
    have hc : isWordChar c = true := huw c (by simp)
    rw [List.cons_append, mapRuns_cons_word f c (u2 ++ v) hc]
    have ht : (u2 ++ v).takeWhile isWordChar = u2 :=
      takeWhile_append_stop _ u2 v (fun c hm => huw c (by simp [hm])) hv
    have hd : (u2 ++ v).dropWhile isWordChar = v :=
      dropWhile_append_stop _ u2 v (fun c hm => huw c (by simp [hm])) hv
    rw [ht, hd]

/-- The identity run map is the identity. -/
theorem mapRuns_id (s : List Char) : mapRuns (fun w => w) s = s := by
  cases s with
  | nil => rw [mapRuns]
  | cons c cs =>
    by_cases hc : isWordChar c = true
    · rw [mapRuns_cons_word _ c cs hc, mapRuns_id (cs.dropWhile isWordChar)]
      rw [List.cons_append, List.takeWhile_append_dropWhile]
    · have hcf : isWordChar c = false := Bool.not_eq_true _ |>.mp hc
      rw [mapRuns_cons_nonword _ c cs hcf, mapRuns_id cs]
termination_by s.length
decreasing_by
  all_goals
    simp only [List.length_cons]
  all_goals
    first
      | exact Nat.lt_succ_of_le (dropWhile_length_le _ _)
      | exact Nat.lt_succ_self _

/-- Composition of run maps, when the inner one maps nonempty word runs to
nonempty word runs. -/
theorem mapRuns_comp (f g : List Char → List Char)
    (hf : ∀ w, w ≠ [] → (∀ c ∈ w, isWordChar c = true) →
      f w ≠ [] ∧ ∀ c ∈ f w, isWordChar c = true) (s : List Char) :
    mapRuns g (mapRuns f s) = mapRuns (fun w => g (f w)) s := by
  cases s with
  | nil => rw [mapRuns, mapRuns, mapRuns]
  | cons c cs =>
    by_cases hc : isWordChar c = true
    · rw [mapRuns_cons_word f c cs hc, mapRuns_cons_word _ c cs hc]
      have hrun_ne : (c :: cs.takeWhile isWordChar) ≠ [] := by simp
      have hrun_w : ∀ d ∈ c :: cs.takeWhile isWordChar, isWordChar d = true := by
        intro d hd
        rcases List.mem_cons.mp hd with h | h
        · rw [h]; exact hc
        · exact List.mem_takeWhile_imp h
      obtain ⟨hfne, hfw⟩ := hf _ hrun_ne hrun_w
      have hrest : ∀ d, (cs.dropWhile isWordChar).head? = some d → isWordChar d = false :=
        fun d hd => dropWhile_head_not _ cs d hd
      have hrest2 := mapRuns_nonword_head_pres f (cs.dropWhile isWordChar) hrest
      rw [mapRuns_append_run g _ _ hfne hfw hrest2]
      congr 1
      exact mapRuns_comp f g hf (cs.dropWhile isWordChar)
    · have hcf : isWordChar c = false := Bool.not_eq_true _ |>.mp hc
      rw [mapRuns_cons_nonword f c cs hcf, mapRuns_cons_nonword g c _ hcf,
        mapRuns_cons_nonword _ c cs hcf]
      congr 1
      exact mapRuns_comp f g hf cs
termination_by s.length
decreasing_by
  all_goals
    simp only [List.length_cons]
  all_goals
    first
      | exact Nat.lt_succ_of_le (dropWhile_length_le _ _)
      | exact Nat.lt_succ_self _

/-- Every pattern of the abbreviation table is a nonempty all-word string. -/
theorem replacements_keys_ok :
    ∀ kr ∈ replacements, kr.1 ≠ [] ∧ ∀ c ∈ kr.1, isWordChar c = true := by
  decide

/-- Every replacement of the abbreviation table is a nonempty all-word
string. -/
theorem replacements_reps_ok :
    ∀ kr ∈ replacements, kr.2 ≠ [] ∧ ∀ c ∈ kr.2, isWordChar c = true := by
  decide

/-- A pointwise word substitution with a nonempty all-word replacement maps
nonempty word runs to nonempty word runs. -/
theorem wordSubst_pres (key rep : List Char) (hrep0 : rep ≠ [])
    (hrepw : ∀ c ∈ rep, isWordChar c = true) :
    ∀ w, w ≠ [] → (∀ c ∈ w, isWordChar c = true) →
      wordSubst key rep w ≠ [] ∧ ∀ c ∈ wordSubst key rep w, isWordChar c = true := by
  intro w hw0 hww
  unfold wordSubst
  split
  · exact ⟨hrep0, hrepw⟩
  · exact ⟨hw0, hww⟩

/-- Folding whole-word substitutions over a string is the run map of the
folded pointwise substitutions. -/
theorem foldl_subWord_eq_mapRuns (rs : List (List Char × List Char))
    (hkeys : ∀ kr ∈ rs, kr.1 ≠ [] ∧ ∀ c ∈ kr.1, isWordChar c = true)
    (hreps : ∀ kr ∈ rs, kr.2 ≠ [] ∧ ∀ c ∈ kr.2, isWordChar c = true) (s : List Char) :
    rs.foldl (fun a kr => subWord kr.1 kr.2 a) s =
      mapRuns (fun w => rs.foldl (fun a kr => wordSubst kr.1 kr.2 a) w) s := by
  induction rs generalizing s with
  | nil =>
    rw [List.foldl_nil]
    exact (mapRuns_id s).symm
  | cons kr rs ih =>
    rw [List.foldl_cons]
    obtain ⟨hk0, hkw⟩ := hkeys kr (by simp)
    obtain ⟨hr0, hrw⟩ := hreps kr (by simp)
    rw [show subWord kr.1 kr.2 s = mapRuns (wordSubst kr.1 kr.2) s from
      subWordAux_eq_mapRuns kr.1 kr.2 hkw hk0 s]
    rw [ih (fun x hx => hkeys x (by simp [hx])) (fun x hx => hreps x (by simp [hx]))]
    rw [mapRuns_comp (wordSubst kr.1 kr.2) _ (wordSubst_pres kr.1 kr.2 hr0 hrw)]
    rfl

/-- The abbreviation pass is the run map of the composite pointwise
substitution. -/
theorem applyReplacements_eq_mapRuns (s : List Char) :
    applyReplacements s = mapRuns applyWordSubsts s := by
  unfold applyReplacements applyWordSubsts
  exact foldl_subWord_eq_mapRuns replacements replacements_keys_ok replacements_reps_ok s

/-- The composite pointwise substitution of the table is idempotent: each
key maps to a replacement that matches no key, and all other words are
untouched. -/
theorem applyWordSubsts_idem (w : List Char) :
    applyWordSubsts (applyWordSubsts w) = applyWordSubsts w := by
  by_cases h1 : w = "STREET".toList
  · subst h1; decide
  by_cases h2 : w = "AVENUE".toList
  · subst h2; decide
  by_cases h3 : w = "ROAD".toList
  · subst h3; decide
  by_cases h4 : w = "DRIVE".toList
  · subst h4; decide
  by_cases h5 : w = "LANE".toList
  · subst h5; decide
  by_cases h6 : w = "COURT".toList
  · subst h6; decide
  by_cases h7 : w = "CIRCLE".toList
  · subst h7; decide
  by_cases h8 : w = "PLACE".toList
  · subst h8; decide
  have hG : applyWordSubsts w = w := by
    unfold applyWordSubsts replacements
    simp only [List.foldl_cons, List.foldl_nil]
    unfold wordSubst
    rw [if_neg h1, if_neg h2, if_neg h3, if_neg h4, if_neg h5, if_neg h6, if_neg h7,
      if_neg h8]
  rw [hG, hG]

/-- The composite pointwise substitution preserves nonempty all-word
runs. -/
theorem applyWordSubsts_pres :
    ∀ w, w ≠ [] → (∀ c ∈ w, isWordChar c = true) →
      applyWordSubsts w ≠ [] ∧ ∀ c ∈ applyWordSubsts w, isWordChar c = true := by
  have step : ∀ (rs : List (List Char × List Char)),
      (∀ kr ∈ rs, kr.2 ≠ [] ∧ ∀ c ∈ kr.2, isWordChar c = true) →
      ∀ w, w ≠ [] → (∀ c ∈ w, isWordChar c = true) →
        rs.foldl (fun a kr => wordSubst kr.1 kr.2 a) w ≠ [] ∧
          ∀ c ∈ rs.foldl (fun a kr => wordSubst kr.1 kr.2 a) w, isWordChar c = true := by
    intro rs
    induction rs with
    | nil => intro _ w hw0 hww; exact ⟨hw0, hww⟩
    | cons kr rs ih =>
      intro hreps w hw0 hww
      rw [List.foldl_cons]
      obtain ⟨hr0, hrw⟩ := hreps kr (by simp)
      obtain ⟨h0, hw⟩ := wordSubst_pres kr.1 kr.2 hr0 hrw w hw0 hww
      exact ih (fun x hx => hreps x (by simp [hx])) _ h0 hw
  exact step replacements replacements_reps_ok


/-- Whitespace characters are never word characters. -/
theorem not_isWordChar_of_isWs (c : Char) (h : isWs c = true) : isWordChar c = false := by
  cases hq : isWordChar c
  · rfl
  · rw [not_isWs_of_isWordChar c hq] at h
    exact absurd h (by simp)

/-- If every maximal word run of `s` is a fixed point of `f`, the run map
fixes `s`. -/
theorem mapRuns_id_of_allRuns (f : List Char → List Char) (s : List Char)
    (h : allRuns (fun w => f w == w) s = true) : mapRuns f s = s := by
  cases s with
  | nil => rw [mapRuns]
  | cons c cs =>
    by_cases hc : isWordChar c = true
    · rw [allRuns_cons_word _ c cs hc] at h
      obtain ⟨hok, hrest⟩ := Bool.and_eq_true_iff.mp h
      rw [mapRuns_cons_word f c cs hc, eq_of_beq hok,
        mapRuns_id_of_allRuns f (cs.dropWhile isWordChar) hrest,
        List.cons_append, List.takeWhile_append_dropWhile]
    · have hcf : isWordChar c = false := Bool.not_eq_true _ |>.mp hc
      rw [allRuns_cons_nonword _ c cs hcf] at h
      rw [mapRuns_cons_nonword f c cs hcf, mapRuns_id_of_allRuns f cs h]
termination_by s.length
decreasing_by
  all_goals
    subst_vars
  all_goals
    simp only [List.length_cons]
  all_goals
    first
      | exact Nat.lt_succ_of_le (dropWhile_length_le _ _)
      | exact Nat.lt_succ_self _

/-- `allRuns` over a leading word run followed by a boundary. -/
theorem allRuns_append_run (ok : List Char → Bool) (u v : List Char) (hu0 : u ≠ [])
    (huw : ∀ c ∈ u, isWordChar c = true)
    (hv : ∀ d, v.head? = some d → isWordChar d = false) :
    allRuns ok (u ++ v) = (ok u && allRuns ok v) := by
  cases u with
  | nil => exact absurd rfl hu0
  | cons c u2 =>
    have hc : isWordChar c = true := huw c (by simp)
    rw [List.cons_append, allRuns_cons_word ok c (u2 ++ v) hc]
    rw [takeWhile_append_stop _ u2 v (fun x hx => huw x (by simp [hx])) hv]
    rw [dropWhile_append_stop _ u2 v (fun x hx => huw x (by simp [hx])) hv]

/-- Every run of the image of the composite substitution is a fixed point
of it. -/
theorem allRuns_mapRuns_self (s : List Char) :
    allRuns (fun w => applyWordSubsts w == w) (mapRuns applyWordSubsts s) = true := by
  cases s with
  | nil => rw [mapRuns, allRuns]
  | cons c cs =>
    by_cases hc : isWordChar c = true
    · rw [mapRuns_cons_word _ c cs hc]
      have hrun_ne : (c :: cs.takeWhile isWordChar) ≠ [] := by simp
      have hrun_w : ∀ d ∈ c :: cs.takeWhile isWordChar, isWordChar d = true := by
        intro d hd
        rcases List.mem_cons.mp hd with h | h
        · rw [h]; exact hc
        · exact List.mem_takeWhile_imp h
      obtain ⟨hfne, hfw⟩ := applyWordSubsts_pres _ hrun_ne hrun_w
      have hrest : ∀ d, (cs.dropWhile isWordChar).head? = some d → isWordChar d = false :=
        fun d hd => dropWhile_head_not _ cs d hd
      have hrest2 := mapRuns_nonword_head_pres applyWordSubsts (cs.dropWhile isWordChar) hrest
      rw [allRuns_append_run _ _ _ hfne hfw hrest2]
      apply Bool.and_eq_true_iff.mpr
      refine ⟨beq_iff_eq.mpr (applyWordSubsts_idem _), ?_⟩
      exact allRuns_mapRuns_self (cs.dropWhile isWordChar)
    · have hcf : isWordChar c = false := Bool.not_eq_true _ |>.mp hc
      rw [mapRuns_cons_nonword _ c cs hcf, allRuns_cons_nonword _ c _ hcf]
      exact allRuns_mapRuns_self cs
termination_by s.length
decreasing_by
  all_goals
    simp only [List.length_cons]
  all_goals
    first
      | exact Nat.lt_succ_of_le (dropWhile_length_le _ _)
      | exact Nat.lt_succ_self _

/-- `allRuns` is blind to leading whitespace. -/
theorem allRuns_dropWhile_ws (ok : List Char → Bool) (s : List Char) :
    allRuns ok (s.dropWhile isWs) = allRuns ok s := by
  induction s with
  | nil => rfl
  | cons c cs ih =>
    by_cases hcw : isWs c = true
    · have hcnw := not_isWordChar_of_isWs c hcw
      rw [List.dropWhile_cons_of_pos hcw, ih, allRuns_cons_nonword ok c cs hcnw]
    · rw [List.dropWhile_cons_of_neg hcw]

/-- An all-whitespace string has no word runs. -/
theorem allRuns_all_ws (ok : List Char → Bool) (u : List Char)
    (hu : ∀ c ∈ u, isWs c = true) : allRuns ok u = true := by
  induction u with
  | nil => rw [allRuns]
  | cons c cs ih =>
    have hc := hu c (by simp)
    rw [allRuns_cons_nonword ok c cs (not_isWordChar_of_isWs c hc)]
    exact ih (fun x hx => hu x (by simp [hx]))

/-- Taking word characters ignores a suffix with none. -/
theorem takeWhile_append_of_none (p : Char → Bool) (x u : List Char)
    (hu : ∀ c ∈ u, p c = false) : (x ++ u).takeWhile p = x.takeWhile p := by
  induction x with
  | nil =>
    cases u with
    | nil => rfl
    | cons c cs =>
      have hc := hu c (by simp)
      simp [List.takeWhile_cons, hc]
  | cons c x ih =>
    cases hp : p c
    · rw [List.cons_append, List.takeWhile_cons_of_neg (by simp [hp]),
        List.takeWhile_cons_of_neg (by simp [hp])]
    · rw [List.cons_append, List.takeWhile_cons_of_pos hp, List.takeWhile_cons_of_pos hp, ih]

/-- Dropping word characters passes such a suffix through. -/
theorem dropWhile_append_of_none (p : Char → Bool) (x u : List Char)
    (hu : ∀ c ∈ u, p c = false) : (x ++ u).dropWhile p = x.dropWhile p ++ u := by
  induction x with
  | nil =>
    cases u with
    | nil => rfl
    | cons c cs =>
      have hc := hu c (by simp)
      simp [List.dropWhile_cons, hc]
  | cons c x ih =>
    cases hp : p c
    · rw [List.cons_append, List.dropWhile_cons_of_neg (by simp [hp]),
        List.dropWhile_cons_of_neg (by simp [hp]), List.cons_append]
    · rw [List.cons_append, List.dropWhile_cons_of_pos hp, List.dropWhile_cons_of_pos hp, ih]

/-- `allRuns` ignores an all-whitespace suffix. -/
theorem allRuns_append_ws (ok : List Char → Bool) (d u : List Char)
    (hu : ∀ c ∈ u, isWs c = true) : allRuns ok (d ++ u) = allRuns ok d := by
  cases d with
  | nil =>
    rw [List.nil_append, allRuns_all_ws ok u hu, allRuns]
  | cons c cs =>
    have huw : ∀ x ∈ u, isWordChar x = false :=
      fun x hx => not_isWordChar_of_isWs x (hu x hx)
    by_cases hc : isWordChar c = true
    · rw [List.cons_append, allRuns_cons_word ok c (cs ++ u) hc, allRuns_cons_word ok c cs hc]
      rw [takeWhile_append_of_none _ cs u huw, dropWhile_append_of_none _ cs u huw]
      rw [allRuns_append_ws ok (cs.dropWhile isWordChar) u hu]
    · have hcf : isWordChar c = false := Bool.not_eq_true _ |>.mp hc
      rw [List.cons_append, allRuns_cons_nonword ok c (cs ++ u) hcf,
        allRuns_cons_nonword ok c cs hcf]
      exact allRuns_append_ws ok cs u hu
termination_by d.length
decreasing_by
  all_goals
    simp only [List.length_cons]
  all_goals
    first
      | exact Nat.lt_succ_of_le (dropWhile_length_le _ _)
      | exact Nat.lt_succ_self _

/-- Trailing-whitespace removal splits the string into its result and an
all-whitespace suffix. -/
theorem dropTrailWs_decomp (l : List Char) :
    ∃ u, l = dropTrailWs l ++ u ∧ ∀ c ∈ u, isWs c = true := by
  induction l with
  | nil => exact ⟨[], rfl, by simp⟩
  | cons c cs ih =>
    obtain ⟨u, hu, huw⟩ := ih
    simp only [dropTrailWs]
    by_cases h : ((dropTrailWs cs).isEmpty && isWs c) = true
    · rw [if_pos h]
      obtain ⟨he, hc⟩ := Bool.and_eq_true_iff.mp h
      have hnil : dropTrailWs cs = [] := List.isEmpty_iff.mp he
      refine ⟨c :: cs, by simp, ?_⟩
      intro x hx
      rcases List.mem_cons.mp hx with h | h
      · rw [h]; exact hc
      · apply huw
        rw [hu, hnil, List.nil_append] at h
        exact h
    · rw [if_neg h]
      refine ⟨u, ?_, huw⟩
      conv_lhs => rw [hu]
      rw [List.cons_append]

/-- `allRuns` is blind to trailing whitespace removal. -/
theorem allRuns_dropTrailWs (ok : List Char → Bool) (l : List Char) :
    allRuns ok (dropTrailWs l) = allRuns ok l := by
  obtain ⟨u, hu, huw⟩ := dropTrailWs_decomp l
  conv_rhs => rw [hu]
  rw [allRuns_append_ws ok (dropTrailWs l) u huw]

/-- Whitespace collapsing keeps characters that are not whitespace. -/
theorem collapseWs_append_noWs (u v : List Char) (hu : ∀ c ∈ u, isWs c = false) :
    collapseWs (u ++ v) = u ++ collapseWs v := by
  induction u with
  | nil => rfl
  | cons c u ih =>
    have hc := hu c (by simp)
    rw [List.cons_append, collapseWs, if_neg (by simp [hc]),
      ih (fun x hx => hu x (by simp [hx]))]
    rfl

/-- Whitespace collapsing preserves a non-word (or absent) head. -/
theorem collapseWs_nonword_head_pres (v : List Char)
    (hv : ∀ d, v.head? = some d → isWordChar d = false) :
    ∀ d, (collapseWs v).head? = some d → isWordChar d = false := by
  cases v with
  | nil =>
    intro d hd
    rw [collapseWs] at hd
    simp at hd
  | cons e es =>
    by_cases hw : isWs e = true
    · rw [collapseWs, if_pos hw]
      intro d hd
      simp only [List.head?_cons, Option.some.injEq] at hd
      rw [← hd]
      decide
    · rw [collapseWs, if_neg hw]
      intro d hd
      simp only [List.head?_cons, Option.some.injEq] at hd
      rw [← hd]
      exact hv e rfl

/-- `allRuns` is invariant under whitespace collapsing. -/
theorem allRuns_collapseWs (ok : List Char → Bool) (s : List Char) :
    allRuns ok (collapseWs s) = allRuns ok s := by
  cases s with
  | nil => rw [collapseWs]
  | cons c cs =>
    by_cases hws : isWs c = true
    · have hcnw := not_isWordChar_of_isWs c hws
      rw [collapseWs, if_pos hws,
        allRuns_cons_nonword ok ' ' _ (by decide),
        allRuns_cons_nonword ok c cs hcnw,
        allRuns_collapseWs ok (cs.dropWhile isWs)]
      exact allRuns_dropWhile_ws ok cs
    · by_cases hc : isWordChar c = true
      · rw [collapseWs, if_neg hws,
          allRuns_cons_word ok c (collapseWs cs) hc, allRuns_cons_word ok c cs hc]
        have hrest : ∀ d, (cs.dropWhile isWordChar).head? = some d → isWordChar d = false :=
          fun d hd => dropWhile_head_not _ cs d hd
        have hnws : ∀ x ∈ cs.takeWhile isWordChar, isWs x = false :=
          fun x hx => not_isWs_of_isWordChar x (List.mem_takeWhile_imp hx)
        have hcw : collapseWs cs =
            cs.takeWhile isWordChar ++ collapseWs (cs.dropWhile isWordChar) := by
          conv_lhs => rw [← List.takeWhile_append_dropWhile isWordChar cs]
          exact collapseWs_append_noWs _ _ hnws
        have hhead := collapseWs_nonword_head_pres (cs.dropWhile isWordChar) hrest
        rw [hcw]
        rw [takeWhile_append_stop _ _ _ (fun x hx => List.mem_takeWhile_imp hx) hhead]
        rw [dropWhile_append_stop _ _ _ (fun x hx => List.mem_takeWhile_imp hx) hhead]
        rw [allRuns_collapseWs ok (cs.dropWhile isWordChar)]
      · have hcf : isWordChar c = false := Bool.not_eq_true _ |>.mp hc
        rw [collapseWs, if_neg hws,
          allRuns_cons_nonword ok c (collapseWs cs) hcf,
          allRuns_cons_nonword ok c cs hcf]
        exact allRuns_collapseWs ok cs
termination_by s.length
decreasing_by
  all_goals
    simp only [List.length_cons]
  all_goals
    first
      | exact Nat.lt_succ_of_le (dropWhile_length_le _ _)
      | exact Nat.lt_succ_self _


/-- `wsNorm` passes to the tail. -/
theorem wsNorm_tail (c : Char) (cs : List Char) (h : wsNorm (c :: cs) = true) :
    wsNorm cs = true := by
  cases cs with
  | nil => rw [wsNorm]
  | cons d ds =>
    rw [wsNorm] at h
    exact (Bool.and_eq_true_iff.mp h).2

/-- A non-whitespace head preserves `wsNorm`. -/
theorem wsNorm_cons_of_not_ws (c : Char) (cs : List Char) (hc : isWs c = false)
    (h : wsNorm cs = true) : wsNorm (c :: cs) = true := by
  cases cs with
  | nil => simp [wsNorm, hc]
  | cons d ds => simp [wsNorm, hc, h]

/-- A single space before a non-whitespace (or absent) head preserves
`wsNorm`. -/
theorem wsNorm_cons_space (cs : List Char)
    (hd : ∀ d, cs.head? = some d → isWs d = false) (h : wsNorm cs = true) :
    wsNorm (' ' :: cs) = true := by
  cases cs with
  | nil => decide
  | cons d ds =>
    have hdws := hd d rfl
    simp [wsNorm, hdws, h]

/-- Whitespace collapsing preserves a non-whitespace (or absent) head. -/
theorem collapseWs_head_nonws (v : List Char)
    (hv : ∀ d, v.head? = some d → isWs d = false) :
    ∀ d, (collapseWs v).head? = some d → isWs d = false := by
  cases v with
  | nil =>
    intro d hd
    rw [collapseWs] at hd
    simp at hd
  | cons e es =>
    have he := hv e rfl
    rw [collapseWs, if_neg (by simp [he])]
    intro d hd
    simp only [List.head?_cons, Option.some.injEq] at hd
    rw [← hd]
    exact he

/-- The collapse output is whitespace-normal. -/
theorem wsNorm_collapseWs (s : List Char) : wsNorm (collapseWs s) = true := by
  cases s with
  | nil =>
    rw [collapseWs]
    rw [wsNorm]
  | cons c cs =>
    by_cases hcw : isWs c = true
    · rw [collapseWs, if_pos hcw]
      apply wsNorm_cons_space
      · exact collapseWs_head_nonws (cs.dropWhile isWs)
          (fun e he => dropWhile_head_not _ cs e he)
      · exact wsNorm_collapseWs (cs.dropWhile isWs)
    · rw [collapseWs, if_neg hcw]
      apply wsNorm_cons_of_not_ws _ _ (Bool.not_eq_true _ |>.mp hcw)
      exact wsNorm_collapseWs cs
termination_by s.length
decreasing_by
  all_goals
    simp only [List.length_cons]
  all_goals
    first
      | exact Nat.lt_succ_of_le (dropWhile_length_le _ _)
      | exact Nat.lt_succ_self _

/-- Whitespace-normal strings are fixed by the collapse. -/
theorem collapseWs_id_of_wsNorm (s : List Char) (h : wsNorm s = true) :
    collapseWs s = s := by
  cases s with
  | nil => rw [collapseWs]
  | cons c cs =>
    by_cases hcw : isWs c = true
    · cases cs with
      | nil =>
        have hsp : c = ' ' := by
          rw [wsNorm] at h
          simpa [hcw] using h
        rw [collapseWs, if_pos hcw, hsp]
        rw [show ([] : List Char).dropWhile isWs = [] from rfl, collapseWs]
      | cons d ds =>
        rw [wsNorm] at h
        obtain ⟨hhead, htail⟩ := Bool.and_eq_true_iff.mp h
        have hparts : c = ' ' ∧ isWs d = false := by
          simpa [hcw] using hhead
        rw [collapseWs, if_pos hcw,
          List.dropWhile_cons_of_neg (by simp [hparts.2]),
          collapseWs_id_of_wsNorm (d :: ds) htail, hparts.1]
    · rw [collapseWs, if_neg hcw, collapseWs_id_of_wsNorm cs (wsNorm_tail c cs h)]
termination_by s.length
decreasing_by
  all_goals
    subst_vars
  all_goals
    simp only [List.length_cons]
  all_goals
    exact Nat.lt_succ_self _

/-- `wsNorm` survives dropping leading whitespace. -/
theorem wsNorm_dropWhile_ws (s : List Char) (h : wsNorm s = true) :
    wsNorm (s.dropWhile isWs) = true := by
  induction s with
  | nil => exact h
  | cons c cs ih =>
    by_cases hcw : isWs c = true
    · rw [List.dropWhile_cons_of_pos hcw]
      exact ih (wsNorm_tail c cs h)
    · rw [List.dropWhile_cons_of_neg hcw]
      exact h

/-- The head of a trailing-whitespace strip is the original head. -/
theorem dropTrailWs_head (c : Char) (cs : List Char) :
    dropTrailWs (c :: cs) = [] ∨ ∃ r, dropTrailWs (c :: cs) = c :: r := by
  simp only [dropTrailWs]
  by_cases h : ((dropTrailWs cs).isEmpty && isWs c) = true
  · rw [if_pos h]
    exact Or.inl rfl
  · rw [if_neg h]
    exact Or.inr ⟨_, rfl⟩

/-- `wsNorm` survives dropping trailing whitespace. -/
theorem wsNorm_dropTrailWs (s : List Char) (h : wsNorm s = true) :
    wsNorm (dropTrailWs s) = true := by
  induction s with
  | nil => exact h
  | cons c cs ih =>
    have htail := ih (wsNorm_tail c cs h)
    simp only [dropTrailWs]
    by_cases hcond : ((dropTrailWs cs).isEmpty && isWs c) = true
    · rw [if_pos hcond]
      rw [wsNorm]
    · rw [if_neg hcond]
      by_cases hcw : isWs c = true
      · have hXne : dropTrailWs cs ≠ [] := by
          intro e
          apply hcond
          rw [e]
          simp [hcw]
        cases cs with
        | nil => exact absurd rfl hXne
        | cons d ds =>
          rw [wsNorm] at h
          obtain ⟨hhead, _⟩ := Bool.and_eq_true_iff.mp h
          have hparts : c = ' ' ∧ isWs d = false := by
            simpa [hcw] using hhead
          rcases dropTrailWs_head d ds with hnil | ⟨r, hr⟩
          · exact absurd hnil hXne
          · rw [hr]
            rw [hr] at htail
            rw [hparts.1]
            apply wsNorm_cons_space
            · intro e he
              simp only [List.head?_cons, Option.some.injEq] at he
              rw [← he]
              exact hparts.2
            · exact htail
      · exact wsNorm_cons_of_not_ws c _ (Bool.not_eq_true _ |>.mp hcw) htail

/-- Trailing-whitespace removal is idempotent. -/
theorem dropTrailWs_idem (l : List Char) : dropTrailWs (dropTrailWs l) = dropTrailWs l := by
  induction l with
  | nil => rfl
  | cons c cs ih =>
    simp only [dropTrailWs]
    by_cases h : ((dropTrailWs cs).isEmpty && isWs c) = true
    · rw [if_pos h]
      rfl
    · rw [if_neg h]
      simp only [dropTrailWs]
      rw [ih, if_neg h]

/-- A strip whose input has a non-whitespace head needs no leading drop. -/
theorem dropWhile_dropTrailWs_of_head (y : List Char)
    (hy : ∀ d, y.head? = some d → isWs d = false) :
    (dropTrailWs y).dropWhile isWs = dropTrailWs y := by
  cases y with
  | nil => rfl
  | cons e es =>
    have he := hy e rfl
    rcases dropTrailWs_head e es with hnil | ⟨r, hr⟩
    · rw [hnil]
      rfl
    · rw [hr, List.dropWhile_cons_of_neg (by simp [he])]

/-- Stripping is idempotent. -/
theorem pyStrip_idem (s : List Char) : pyStrip (pyStrip s) = pyStrip s := by
  unfold pyStrip
  rw [dropWhile_dropTrailWs_of_head (s.dropWhile isWs)
    (fun d hd => dropWhile_head_not _ s d hd)]
  exact dropTrailWs_idem _


/-- The ASCII upper-case map is idempotent. -/
theorem toUpper_idem_char (c : Char) : (c.toUpper).toUpper = c.toUpper := by
  by_cases h : 97 ≤ c.toNat ∧ c.toNat ≤ 122
  · have hu : c.toUpper = Char.ofNat (c.toNat - 32) := by
      unfold Char.toUpper
      rw [if_pos h]
    rw [hu]
    obtain ⟨h1, h2⟩ := h
    interval_cases hc : c.toNat <;> decide
  · have hu : c.toUpper = c := by
      unfold Char.toUpper
      rw [if_neg h]
    rw [hu, hu]

/-- Every character of an upper-cased string is fixed by upper-casing. -/
theorem pyUpper_chars (s : List Char) : ∀ c ∈ pyUpper s, Char.toUpper c = c := by
  intro c hc
  unfold pyUpper at hc
  obtain ⟨d, _, he⟩ := List.mem_map.mp hc
  rw [← he]
  exact toUpper_idem_char d

/-- Upper-casing fixes a string of upper-case-fixed characters. -/
theorem pyUpper_id_of (s : List Char) (h : ∀ c ∈ s, Char.toUpper c = c) :
    pyUpper s = s := by
  unfold pyUpper
  have he : s.map Char.toUpper = s.map id :=
    List.map_congr_left (fun a ha => by rw [h a ha]; rfl)
  rw [he, List.map_id]

/-- Characters of the punctuation pass: punctuation-free, and each is a
space or an original character. -/
theorem removePunct_chars (s : List Char) :
    ∀ c ∈ removePunct s, isPunctChar c = false ∧ (c = ' ' ∨ c ∈ s) := by
  intro c hc
  unfold removePunct at hc
  obtain ⟨d, hd, he⟩ := List.mem_map.mp hc
  by_cases hp : isPunctChar d = true
  · rw [if_pos hp] at he
    rw [← he]
    exact ⟨by decide, Or.inl rfl⟩
  · rw [if_neg hp] at he
    rw [← he]
    exact ⟨Bool.not_eq_true _ |>.mp hp, Or.inr hd⟩

/-- The punctuation pass fixes punctuation-free strings. -/
theorem removePunct_id_of (s : List Char) (h : ∀ c ∈ s, isPunctChar c = false) :
    removePunct s = s := by
  unfold removePunct
  have he : (s.map fun c => if isPunctChar c then ' ' else c) = s.map id :=
    List.map_congr_left (fun a ha => by rw [if_neg (by simp [h a ha])]; rfl)
  rw [he, List.map_id]

/-- Characters of the scanner output come from the replacement or the
input. -/
theorem mem_subWordAux (key rep : List Char) (b : Bool) (s : List Char) (c : Char)
    (hc : c ∈ subWordAux key rep b s) : c ∈ rep ∨ c ∈ s := by
  cases s with
  | nil =>
    rw [subWordAux] at hc
    simp at hc
  | cons d ds =>
    rw [subWordAux] at hc
    by_cases hm : (!b && matchesWordAt key (d :: ds)) = true
    · rw [if_pos hm] at hc
      rcases List.mem_append.mp hc with h | h
      · exact Or.inl h
      · rcases mem_subWordAux key rep true _ c h with h2 | h2
        · exact Or.inl h2
        · exact Or.inr (List.mem_cons_of_mem d (List.drop_subset _ ds h2))
    · rw [if_neg hm] at hc
      rcases List.mem_cons.mp hc with h | h
      · exact Or.inr (by rw [h]; simp)
      · rcases mem_subWordAux key rep _ ds c h with h2 | h2
        · exact Or.inl h2
        · exact Or.inr (List.mem_cons_of_mem d h2)
termination_by s.length
decreasing_by
  all_goals
    subst_vars
  all_goals
    try simp only [List.length_drop, List.length_cons]
  all_goals
    first
      | omega
      | exact Nat.lt_succ_of_le (dropWhile_length_le _ _)

/-- Characters of the abbreviation pass come from the input or one of the
replacement strings. -/
theorem mem_foldl_subWord (rs : List (List Char × List Char)) (s : List Char) (c : Char)
    (hc : c ∈ rs.foldl (fun a kr => subWord kr.1 kr.2 a) s) :
    c ∈ s ∨ ∃ kr ∈ rs, c ∈ kr.2 := by
  induction rs generalizing s with
  | nil =>
    rw [List.foldl_nil] at hc
    exact Or.inl hc
  | cons kr rs ih =>
    rw [List.foldl_cons] at hc
    rcases ih _ hc with h | ⟨kr2, hm, hc2⟩
    · rcases mem_subWordAux kr.1 kr.2 false s c h with h2 | h2
      · exact Or.inr ⟨kr, by simp, h2⟩
      · exact Or.inl h2
    · exact Or.inr ⟨kr2, by simp [hm], hc2⟩

/-- Characters of the collapse output are spaces or input characters. -/
theorem mem_collapseWs (s : List Char) (c : Char) (hc : c ∈ collapseWs s) :
    c = ' ' ∨ c ∈ s := by
  cases s with
  | nil =>
    rw [collapseWs] at hc
    simp at hc
  | cons d ds =>
    by_cases hw : isWs d = true
    · rw [collapseWs, if_pos hw] at hc
      rcases List.mem_cons.mp hc with h | h
      · exact Or.inl h
      · rcases mem_collapseWs _ c h with h2 | h2
        · exact Or.inl h2
        · exact Or.inr (List.mem_cons_of_mem d ((List.dropWhile_sublist isWs).subset h2))
    · rw [collapseWs, if_neg hw] at hc
      rcases List.mem_cons.mp hc with h | h
      · exact Or.inr (by rw [h]; simp)
      · rcases mem_collapseWs ds c h with h2 | h2
        · exact Or.inl h2
        · exact Or.inr (List.mem_cons_of_mem d h2)
termination_by s.length
decreasing_by
  all_goals
    subst_vars
  all_goals
    try simp only [List.length_cons]
  all_goals
    first
      | omega
      | exact Nat.lt_succ_of_le (dropWhile_length_le _ _)

/-- Trailing-whitespace removal keeps a subset of the characters. -/
theorem mem_dropTrailWs (s : List Char) (c : Char) (hc : c ∈ dropTrailWs s) : c ∈ s := by
  induction s with
  | nil =>
    rw [show dropTrailWs [] = [] from rfl] at hc
    simp at hc
  | cons d ds ih =>
    simp only [dropTrailWs] at hc
    by_cases h : ((dropTrailWs ds).isEmpty && isWs d) = true
    · rw [if_pos h] at hc
      simp at hc
    · rw [if_neg h] at hc
      rcases List.mem_cons.mp hc with h2 | h2
      · rw [h2]; simp
      · exact List.mem_cons_of_mem d (ih h2)

/-- Stripping keeps a subset of the characters. -/
theorem mem_pyStrip (s : List Char) (c : Char) (hc : c ∈ pyStrip s) : c ∈ s := by
  unfold pyStrip at hc
  exact (List.dropWhile_sublist isWs).subset (mem_dropTrailWs _ c hc)

/-- The replacement strings of the table are upper-case and
punctuation-free. -/
theorem replacements_reps_chars :
    ∀ kr ∈ replacements, ∀ c ∈ kr.2, Char.toUpper c = c ∧ isPunctChar c = false := by
  decide

/-- Every character of the normalizer pipeline output is fixed by
upper-casing and is not one of the stripped punctuation marks. -/
theorem enhanced_clean_chars (a : List Char) :
    ∀ c ∈ pyStrip (collapseWs (applyReplacements (removePunct (pyStrip (pyUpper a))))),
      Char.toUpper c = c ∧ isPunctChar c = false := by
  intro c hc
  have h1 := mem_pyStrip _ c hc
  rcases mem_collapseWs _ c h1 with hsp | h2
  · rw [hsp]
    exact ⟨by decide, by decide⟩
  unfold applyReplacements at h2
  rcases mem_foldl_subWord replacements _ c h2 with h3 | ⟨kr, hm, hc2⟩
  · obtain ⟨hpf, hor⟩ := removePunct_chars _ c h3
    rcases hor with hsp | h4
    · rw [hsp]
      exact ⟨by decide, by decide⟩
    · exact ⟨pyUpper_chars a c (mem_pyStrip _ c h4), hpf⟩
  · exact replacements_reps_chars kr hm c hc2


/-- One whole-word substitution does nothing to the empty string. -/
theorem subWord_nil (key rep : List Char) : subWord key rep [] = [] := by
  unfold subWord
  rw [subWordAux]

/-- The abbreviation pass does nothing to the empty string. -/
theorem applyReplacements_nil : applyReplacements [] = [] := by
  unfold applyReplacements replacements
  simp only [List.foldl_cons, List.foldl_nil, subWord_nil]

/-- C3: the address normalizer is idempotent: cleaning an already-cleaned
address (including the empty result of a missing address) returns it
unchanged. -/
theorem c3_enhanced_clean_idempotent (addr : Option (List Char)) :
    enhanced_clean (some (enhanced_clean addr)) = enhanced_clean addr := by
  cases addr with
  | none =>
    show enhanced_clean (some []) = []
    show pyStrip (collapseWs (applyReplacements (removePunct (pyStrip (pyUpper []))))) = []
    rw [show pyStrip (pyUpper []) = [] from rfl]
    rw [show removePunct [] = [] from rfl]
    rw [applyReplacements_nil]
    rw [show collapseWs [] = [] by rw [collapseWs]]
    rfl
  | some a =>
    show pyStrip (collapseWs (applyReplacements (removePunct (pyStrip (pyUpper
        (pyStrip (collapseWs (applyReplacements (removePunct (pyStrip (pyUpper a))))))))))) =
      pyStrip (collapseWs (applyReplacements (removePunct (pyStrip (pyUpper a)))))
    have hchars := enhanced_clean_chars a
    have h1 : pyUpper (pyStrip (collapseWs (applyReplacements
        (removePunct (pyStrip (pyUpper a)))))) =
        pyStrip (collapseWs (applyReplacements (removePunct (pyStrip (pyUpper a))))) :=
      pyUpper_id_of _ (fun c hc => (hchars c hc).1)
    rw [h1]
    have h2 : pyStrip (pyStrip (collapseWs (applyReplacements
        (removePunct (pyStrip (pyUpper a)))))) =
        pyStrip (collapseWs (applyReplacements (removePunct (pyStrip (pyUpper a))))) :=
      pyStrip_idem _
    rw [h2]
    have h3 : removePunct (pyStrip (collapseWs (applyReplacements
        (removePunct (pyStrip (pyUpper a)))))) =
        pyStrip (collapseWs (applyReplacements (removePunct (pyStrip (pyUpper a))))) :=
      removePunct_id_of _ (fun c hc => (hchars c hc).2)
    rw [h3]
    have h4 : applyReplacements (pyStrip (collapseWs (applyReplacements
        (removePunct (pyStrip (pyUpper a)))))) =
        pyStrip (collapseWs (applyReplacements (removePunct (pyStrip (pyUpper a))))) := by
      rw [applyReplacements_eq_mapRuns]
      apply mapRuns_id_of_allRuns
      unfold pyStrip
      rw [allRuns_dropTrailWs, allRuns_dropWhile_ws, allRuns_collapseWs,
        applyReplacements_eq_mapRuns]
      exact allRuns_mapRuns_self _
    rw [h4]
    have h5 : collapseWs (pyStrip (collapseWs (applyReplacements
        (removePunct (pyStrip (pyUpper a)))))) =
        pyStrip (collapseWs (applyReplacements (removePunct (pyStrip (pyUpper a))))) := by
      apply collapseWs_id_of_wsNorm
      unfold pyStrip
      apply wsNorm_dropTrailWs
      apply wsNorm_dropWhile_ws
      exact wsNorm_collapseWs _
    rw [h5]
    exact h2

end VoterPipeline
